import Mathlib

/-!
# Balance sheet and blockchain worker

A shallow embedding of

* `foundation/blockchain/balance/balance.go` (the `Sheet` ledger), and
* `foundation/node/worker.go` (the `bcWorker` mining / peer-sync worker),

followed by theorems about the embedded code.

Conventions of the embedding.

* Go `uint` is a 64-bit unsigned word: values are naturals below `uintSize`
  and every `+=` / `-=` is reduced modulo `uintSize`.
* A Go `map[string]uint` is a reference value.  Its contents are an association
  list (`BalMap`); the map itself lives in a `Heap` and a `Sheet` holds the
  index of its map, so that aliasing between sheets (`Replace`) and the fresh
  allocation done by `make` (`NewSheet`, `Reset`, `Clone`) are both visible.
* A method with receiver `bs *Sheet` takes the heap and the struct and returns
  the heap and the struct after the call.  The mutex only makes each method
  atomic and is not represented.
-/

namespace Balance

/-! ## Machine words -/

/-- Number of values of Go `uint` on a 64-bit platform. -/
def uintSize : Nat := 18446744073709551616

/-- Go `x + y` on `uint`. -/
def uadd (x y : Nat) : Nat := (x + y) % uintSize

/-- Go `x - y` on `uint` (wraps around below zero). -/
def usub (x y : Nat) : Nat := (x % uintSize + uintSize - y % uintSize) % uintSize

/-! ## Contents of a Go map -/

/-- Contents of a `map[string]uint`: key/value entries. -/
abbrev BalMap := List (String × Nat)

namespace BalMap

/-- Go `m[a]` as an expression: the stored value, or the zero value when the
key is absent. -/
def get : BalMap → String → Nat
  | [], _ => 0
  | (k, v) :: rest, a => if k = a then v else get rest a

/-- Go `m[a] = v`: overwrite the entry of `a`, or create it. -/
def set : BalMap → String → Nat → BalMap
  | [], a, v => [(a, v)]
  | (k, w) :: rest, a, v => if k = a then (k, v) :: rest else (k, w) :: set rest a v

/-- Go `delete(m, a)`. -/
def delete : BalMap → String → BalMap
  | [], _ => []
  | (k, w) :: rest, a => if k = a then delete rest a else (k, w) :: delete rest a

/-- Keys of the map. -/
def keys (m : BalMap) : List String := m.map Prod.fst

/-- Sum of all balances held in the map. -/
def total (m : BalMap) : Nat := (m.map Prod.snd).sum

/-- A list is the contents of a real Go `map[string]uint`: every key occurs
once and every value is a `uint`. -/
def WF (m : BalMap) : Prop := m.keys.Nodup ∧ ∀ e ∈ m, e.2 < uintSize

instance (m : BalMap) : Decidable m.WF := by
  unfold WF; exact inferInstance

end BalMap

/-! ## The heap of maps -/

/-- The heap: the contents of every map allocated so far, by reference. -/
abbrev Heap := List BalMap

namespace Heap

/-- Go `make(map[string]uint)`: allocate an empty map, return its reference. -/
def make (h : Heap) : Heap × Nat := (h ++ [[]], h.length)

/-- Contents of the map behind reference `r`. -/
def read (h : Heap) (r : Nat) : BalMap := h.getD r []

/-- Replace the contents of the map behind reference `r`. -/
def write (h : Heap) (r : Nat) (m : BalMap) : Heap := List.set h r m

/-- Go `m[a] = v` on the map behind `r`. -/
def store (h : Heap) (r : Nat) (a : String) (v : Nat) : Heap :=
  h.write r ((h.read r).set a v)

/-- Go `m[a] += v` on the map behind `r`. -/
def addTo (h : Heap) (r : Nat) (a : String) (v : Nat) : Heap :=
  h.store r a (uadd ((h.read r).get a) v)

/-- Go `m[a] -= v` on the map behind `r`. -/
def subFrom (h : Heap) (r : Nat) (a : String) (v : Nat) : Heap :=
  h.store r a (usub ((h.read r).get a) v)

/-- Go `for address, value := range src { dst[address] = value }` where `src`
has contents `src` and `dst` is the map behind `r`. -/
def copyInto (h : Heap) (r : Nat) (src : BalMap) : Heap :=
  src.foldl (fun h e => h.store r e.1 e.2) h

end Heap

/-! ## Transactions and errors -/

deriving instance DecidableEq for Except

/-- Modelled from the spec: `storage.BlockTx` is declared outside the source
files at hand.  The fields are the ones `ApplyTransaction` reads (`to`,
`value`, `gas`, `tip`); `Signer` is the outcome of recovering the signer from
the signature carried by the transaction (the spec: `from` is recovered from a
cryptographic signature, recovery may fail). -/
structure BlockTx where
  To : String
  Value : Nat
  Gas : Nat
  Tip : Nat
  Signer : Except String String
  deriving DecidableEq, Repr

/-- Modelled from the spec: `tx.FromAddress()` returns the recovered signer or
the recovery error. -/
def BlockTx.FromAddress (tx : BlockTx) : Except String String := tx.Signer

/-- The fields of a transaction are `uint` values. -/
def BlockTx.WF (tx : BlockTx) : Prop :=
  tx.Value < uintSize ∧ tx.Gas < uintSize ∧ tx.Tip < uintSize

instance (tx : BlockTx) : Decidable tx.WF := by
  unfold BlockTx.WF; exact inferInstance

/-- The three errors `ApplyTransaction` builds with `fmt.Errorf`. -/
inductive TxError where
  | invalidSignature (err : String)
  | selfTransfer (frm dst : String)
  | insufficientBalance (frm : String)
  deriving DecidableEq, Repr

/-- The text of the error, as formatted by `fmt.Errorf`. -/
def TxError.Error : TxError → String
  | .invalidSignature err => "invalid signature, " ++ err
  | .selfTransfer frm dst =>
      "invalid transaction, sending money to yourself, from " ++ frm ++ ", to " ++ dst
  | .insufficientBalance frm => frm ++ " has an insufficient balance"

/-! ## The balance sheet -/

/-- The `Sheet` struct: the mining reward and the reference of its map. -/
structure Sheet where
  miningReward : Nat
  sheet : Nat
  deriving DecidableEq, Repr

namespace Sheet

/-- Go `Reset`: a fresh map is made and filled from the given contents. -/
def Reset (h : Heap) (bs : Sheet) (sheet : BalMap) : Heap × Sheet :=
  let (h1, r) := h.make
  (h1.copyInto r sheet, { bs with sheet := r })

/-- Go `NewSheet`: a sheet over a fresh map, reset to `sheet` when it is not nil. -/
def NewSheet (h : Heap) (miningReward : Nat) (sheet : Option BalMap) : Heap × Sheet :=
  let (h1, r) := h.make
  let bs : Sheet := { miningReward := miningReward, sheet := r }
  match sheet with
  | none => (h1, bs)
  | some m => Reset h1 bs m

/-- Go `Replace`: the sheet now shares the map of `newBS`. -/
def Replace (h : Heap) (bs : Sheet) (newBS : Sheet) : Heap × Sheet :=
  (h, { bs with sheet := newBS.sheet })

/-- Go `Remove`: delete the address from the map. -/
def Remove (h : Heap) (bs : Sheet) (address : String) : Heap × Sheet :=
  (h.write bs.sheet ((h.read bs.sheet).delete address), bs)

/-- Go `Clone`: a new sheet whose fresh map receives every entry. -/
def Clone (h : Heap) (bs : Sheet) : Heap × Sheet :=
  let (h1, balanceSheet) := NewSheet h bs.miningReward none
  (h1.copyInto balanceSheet.sheet (h1.read bs.sheet), balanceSheet)

/-- Go `Values`: the contents of a fresh map that received every entry.  The
returned map is referenced by no sheet, so only its contents are kept. -/
def Values (h : Heap) (bs : Sheet) : BalMap :=
  let (h1, r) := h.make
  (h1.copyInto r (h1.read bs.sheet)).read r

/-- Go `ApplyMiningReward`: `bs.sheet[minerAddress] += bs.miningReward`. -/
def ApplyMiningReward (h : Heap) (bs : Sheet) (minerAddress : String) : Heap × Sheet :=
  (h.addTo bs.sheet minerAddress bs.miningReward, bs)

/-- Go `ApplyTransaction`: the heap after the call and the returned error
(`none` is Go `nil`). -/
def ApplyTransaction (h : Heap) (bs : Sheet) (minerAddress : String) (tx : BlockTx) :
    Heap × Option TxError :=
  match tx.FromAddress with
  | .error err => (h, some (.invalidSignature err))
  | .ok frm =>
    if frm = tx.To then
      (h, some (.selfTransfer frm tx.To))
    else if tx.Value > (h.read bs.sheet).get frm then
      (h, some (.insufficientBalance frm))
    else
      let h1 := h.subFrom bs.sheet frm tx.Value
      let h2 := h1.addTo bs.sheet tx.To tx.Value
      let fee := uadd tx.Gas tx.Tip
      let h3 := h2.addTo bs.sheet minerAddress fee
      let h4 := h3.subFrom bs.sheet frm fee
      (h4, none)

/-- The balance of an address: `bs.sheet[a]`. -/
def balance (h : Heap) (bs : Sheet) (a : String) : Nat := (h.read bs.sheet).get a

/-- The sum of all balances of the sheet. -/
def total (h : Heap) (bs : Sheet) : Nat := (h.read bs.sheet).total

/-- The sheet refers to an allocated map with well-formed contents. -/
def WF (h : Heap) (bs : Sheet) : Prop :=
  bs.sheet < h.length ∧ (h.read bs.sheet).WF ∧ bs.miningReward < uintSize

instance (h : Heap) (bs : Sheet) : Decidable (WF h bs) := by
  unfold WF; exact inferInstance

end Sheet

/-- The mutations of a sheet that take no other sheet as argument. -/
inductive Mutation where
  | reset (sheet : BalMap)
  | remove (address : String)
  | applyMiningReward (minerAddress : String)
  | applyTransaction (minerAddress : String) (tx : BlockTx)

/-- Run one mutation on a sheet. -/
def Mutation.run (h : Heap) (bs : Sheet) : Mutation → Heap × Sheet
  | .reset sheet => Sheet.Reset h bs sheet
  | .remove address => Sheet.Remove h bs address
  | .applyMiningReward minerAddress => Sheet.ApplyMiningReward h bs minerAddress
  | .applyTransaction minerAddress tx => ((Sheet.ApplyTransaction h bs minerAddress tx).1, bs)

/-- Run a sequence of mutations on a sheet, one after the other. -/
def Mutation.runAll (h : Heap) (bs : Sheet) : List Mutation → Heap × Sheet
  | [] => (h, bs)
  | μ :: rest => Mutation.runAll (μ.run h bs).1 (μ.run h bs).2 rest

end Balance

/-! # The worker (`foundation/node/worker.go`) -/

namespace Worker

/-! ## Channels -/

/-- A buffered Go channel of `bool`: its capacity and the values waiting in its
buffer, oldest first. -/
structure Chan where
  cap : Nat
  buf : List Bool
  deriving DecidableEq, Repr

namespace Chan

/-- Go `make(chan bool, n)`. -/
def make (n : Nat) : Chan := { cap := n, buf := [] }

/-- A send that does not wait: `some` channel after the send when the buffer has
room, `none` when the send would have to wait. -/
def trySend (c : Chan) (v : Bool) : Option Chan :=
  if c.buf.length < c.cap then some { c with buf := c.buf ++ [v] } else none

/-- A receive that does not wait: the oldest value and the channel after the
receive, `none` when the buffer is empty. -/
def tryRecv (c : Chan) : Option (Bool × Chan) :=
  match c.buf with
  | [] => none
  | v :: rest => some (v, { c with buf := rest })

/-- Number of notifications waiting in the channel. -/
def pending (c : Chan) : Nat := c.buf.length

end Chan

/-! ## Data exchanged with peers -/

/-- The `peerStatus` struct; `KnownPeers` lists the keys of the Go set in the
order in which `range` visits them. -/
structure peerStatus where
  Hash : String
  LatestBlockNumber : Nat
  KnownPeers : List String
  deriving DecidableEq, Repr

/-- Go `peerStatus{}`, the zero value. -/
def peerStatus.zero : peerStatus := { Hash := "", LatestBlockNumber := 0, KnownPeers := [] }

/-- Modelled from the spec: `PeerBlock` is declared outside the source files at
hand; a block carries at least `previousBlockHash`, `thisBlockHash` and its
transaction list, of which the worker reads the length. -/
structure PeerBlock where
  PrevBlock : String
  ThisBlock : String
  Transactions : Nat
  deriving DecidableEq, Repr

/-- An HTTP response as the worker reads it: the status code and the outcome of
reading the body to its end. -/
structure Response where
  StatusCode : Nat
  Body : Except String String
  deriving DecidableEq, Repr

/-- Outcome of `node.MineNewBlock(ctx)`: a block (previous hash, hash, number of
transactions), `ErrNotEnoughTransactions`, or another error. -/
inductive MineResult where
  | block (prevBlock hash : String) (numTrans : Nat)
  | notEnoughTransactions
  | failed (err : String)
  deriving DecidableEq, Repr

/-- Modelled from the spec: the `Node` collaborator and the HTTP client live
outside the source files at hand.  `E` is the state of that environment; the
fields are the calls the worker makes (the spec: `queryMempoolLength`,
`copyKnownPeers`, `copyLatestBlockHeader`, `addPeerNode`, `applyBlockFromPeer`,
the status and block-range queries).  A call that may fail returns the error
(`none` is Go `nil`) and the environment after the call. -/
structure NodeOps (E : Type) where
  QueryMempoolLength : E → Int
  CopyKnownPeersList : E → List String
  CopyLatestBlockNumber : E → Nat
  addPeerNode : E → String → Option String × E
  writeNewBlockFromPeer : E → PeerBlock → Option String × E
  NewRequest : String → Option String
  Do : E → String → Except String Response × E
  decodeStatus : String → Except String peerStatus
  decodeBlocks : String → Except String (List PeerBlock)

/-! ## The worker state and its observable trace -/

/-- What the worker does that can be observed from outside: a call of the event
handler, or a call of a primitive of the environment. -/
inductive Event where
  | ev (v : String)
  | httpGet (url : String)
  | addPeerNode (ipPort : String)
  | writeNewBlockFromPeer (pb : PeerBlock)
  | MineNewBlock
  deriving DecidableEq, Repr

/-- The `bcWorker` struct: the node, the two signalling channels, and the trace
of events so far.  The ticker, the `shut` channel and the wait group belong to
the two long-lived loops and are not represented. -/
structure bcWorker (E : Type) where
  node : E
  startMining : Chan
  cancelMining : Chan
  trace : List Event

namespace bcWorker

variable {E : Type}

/-- Go `bw.evHandler(v)`. -/
def evHandler (bw : bcWorker E) (v : String) : bcWorker E :=
  { bw with trace := bw.trace ++ [Event.ev v] }

/-- Record a call of a primitive of the environment. -/
def record (bw : bcWorker E) (e : Event) : bcWorker E :=
  { bw with trace := bw.trace ++ [e] }

/-- The fields `newBCWorker` sets before it starts the loops. -/
def new (node : E) : bcWorker E :=
  { node := node, startMining := Chan.make 1, cancelMining := Chan.make 1, trace := [] }

/-- Go `signalStartMining`: a `select` between the send and `default`. -/
def signalStartMining (bw : bcWorker E) : bcWorker E :=
  let bw1 :=
    match bw.startMining.trySend true with
    | some c => { bw with startMining := c }
    | none => bw
  bw1.evHandler "bcWorker: signalStartMining: mining signaled"

/-- Go `signalCancelMining`: a `select` between the send and `default`. -/
def signalCancelMining (bw : bcWorker E) : bcWorker E :=
  let bw1 :=
    match bw.cancelMining.trySend true with
    | some c => { bw with cancelMining := c }
    | none => bw
  bw1.evHandler "bcWorker: signalCancelMining: cancel signaled"

/-- Both channels have the capacity `newBCWorker` gives them and hold no more
than that. -/
def WF (bw : bcWorker E) : Prop :=
  bw.startMining.cap = 1 ∧ bw.cancelMining.cap = 1 ∧
  bw.startMining.buf.length ≤ bw.startMining.cap ∧
  bw.cancelMining.buf.length ≤ bw.cancelMining.cap

instance (bw : bcWorker E) : Decidable bw.WF := by
  unfold WF; exact inferInstance

/-- Number of calls of `MineNewBlock` in the trace. -/
def mineCalls (bw : bcWorker E) : Nat := bw.trace.count Event.MineNewBlock

end bcWorker

/-- A signal call made by another goroutine. -/
inductive Signal where
  | start
  | cancel
  deriving DecidableEq, Repr

/-- Run one signal call. -/
def Signal.run {E : Type} (bw : bcWorker E) : Signal → bcWorker E
  | .start => bw.signalStartMining
  | .cancel => bw.signalCancelMining

/-- Run a sequence of signal calls with no receive in between. -/
def Signal.runAll {E : Type} (bw : bcWorker E) (sigs : List Signal) : bcWorker E :=
  sigs.foldl Signal.run bw

/-! ## One mining attempt (`runMiningOperation`)

The attempt runs up to three goroutines: the caller (`mainG`), the goroutine
that waits for a cancel (`cancelG`) and the goroutine that mines (`miningG`).
Each goroutine is a small program counter; `step` lets one goroutine, or a
signal call made by some other goroutine, take its next atomic step, and returns
`none` when that step cannot be taken now (the goroutine waits or has ended). -/

/-- Where `mainG` stands in `runMiningOperation`. -/
inductive MainPC where
  | start
  | drain
  | query
  | spawn
  | wait
  | ret (ctxCreated : Bool)
  | done
  deriving DecidableEq, Repr

/-- Where the cancelling goroutine stands. -/
inductive CancelPC where
  | notSpawned
  | select
  | exit
  | finished
  deriving DecidableEq, Repr

/-- Where the mining goroutine stands. -/
inductive MinerPC where
  | notSpawned
  | started
  | call
  | inCall
  | exit
  | finished
  deriving DecidableEq, Repr

/-- The state of one mining attempt: the worker, the three program counters,
whether `ctx` is cancelled, and the counter of the local wait group. -/
structure Attempt (E : Type) where
  bw : bcWorker E
  mainG : MainPC
  cancelG : CancelPC
  miningG : MinerPC
  ctxDone : Bool
  wg : Nat

/-- Who takes the next step.  `cancelG fromChannel` names the case of its
`select` that fires; `miningG result node` carries what `MineNewBlock` returns
and the environment it leaves, used at the step where the call returns. -/
inductive Action (E : Type) where
  | mainG
  | cancelG (fromChannel : Bool)
  | miningG (result : MineResult) (node : E)
  | signal (sig : Signal)

namespace Attempt

variable {E : Type}

/-- The attempt when `runMiningOperation` is entered. -/
def init (bw : bcWorker E) : Attempt E :=
  { bw := bw, mainG := .start, cancelG := .notSpawned, miningG := .notSpawned,
    ctxDone := false, wg := 0 }

/-- One atomic step of `runMiningOperation`. -/
def step (ops : NodeOps E) (s : Attempt E) : Action E → Option (Attempt E)
  | .mainG =>
    match s.mainG with
    | .start =>
      some { s with
        bw := s.bw.evHandler "bcWorker: runMiningOperation: mainG: mining started"
        mainG := .drain }
    | .drain =>
      match s.bw.cancelMining.tryRecv with
      | some (_, c) =>
        some { s with
          bw := ({ s.bw with cancelMining := c }).evHandler
            "bcWorker: runMiningOperation: mainG: drained cancel channel"
          mainG := .query }
      | none => some { s with mainG := .query }
    | .query =>
      let length := ops.QueryMempoolLength s.bw.node
      if length < 2 then
        some { s with
          bw := s.bw.evHandler
            ("bcWorker: runMiningOperation: mainG: not enough transactions to mine: "
              ++ toString length)
          mainG := .ret false }
      else
        some { s with mainG := .spawn }
    | .spawn =>
      some { s with
        ctxDone := false, wg := 2, cancelG := .select, miningG := .started, mainG := .wait }
    | .wait => if s.wg = 0 then some { s with mainG := .ret true } else none
    | .ret ctxCreated =>
      some { s with
        ctxDone := s.ctxDone || ctxCreated
        bw := s.bw.evHandler "bcWorker: runMiningOperation: mainG: mining completed"
        mainG := .done }
    | .done => none
  | .cancelG fromChannel =>
    match s.cancelG with
    | .select =>
      if fromChannel then
        match s.bw.cancelMining.tryRecv with
        | some (_, c) =>
          some { s with
            bw := ({ s.bw with cancelMining := c }).evHandler
              "bcWorker: runMiningOperation: cancelG: cancel mining"
            cancelG := .exit }
        | none => none
      else if s.ctxDone then
        some { s with
          bw := s.bw.evHandler "bcWorker: runMiningOperation: cancelG: context cancelled"
          cancelG := .exit }
      else none
    | .exit => some { s with ctxDone := true, wg := s.wg - 1, cancelG := .finished }
    | _ => none
  | .miningG result node =>
    match s.miningG with
    | .started =>
      some { s with
        bw := s.bw.evHandler "bcWorker: runMiningOperation: miningG: MineNewBlock: started"
        miningG := .call }
    | .call => some { s with bw := s.bw.record Event.MineNewBlock, miningG := .inCall }
    | .inCall =>
      let bw1 : bcWorker E := { s.bw with node := node }
      let bw2 :=
        match result with
        | .notEnoughTransactions =>
          bw1.evHandler
            "bcWorker: runMiningOperation: miningG: MineNewBlock: not enough transactions in mempool"
        | .failed err =>
          if s.ctxDone then
            bw1.evHandler "bcWorker: runMiningOperation: miningG: MineNewBlock: mining cancelled"
          else
            bw1.evHandler
              ("bcWorker: runMiningOperation: miningG: MineNewBlock: ERROR: " ++ err)
        | .block prevBlock hash numTrans =>
          bw1.evHandler
            ("bcWorker: mineNewBlock: miningG: prevBlk[" ++ prevBlock ++ "]: newBlk[" ++ hash
              ++ "]: numTrans[" ++ toString numTrans ++ "]")
      some { s with bw := bw2, miningG := .exit }
    | .exit =>
      some { s with
        bw := s.bw.evHandler "bcWorker: runMiningOperation: miningG: MineNewBlock: completed"
        ctxDone := true, wg := s.wg - 1, miningG := .finished }
    | _ => none
  | .signal sig => some { s with bw := sig.run s.bw }

/-- Run a schedule: the steps are taken in the given order; `none` when one of
them cannot be taken. -/
def run (ops : NodeOps E) (s : Attempt E) : List (Action E) → Option (Attempt E)
  | [] => some s
  | a :: rest =>
    match step ops s a with
    | none => none
    | some s1 => run ops s1 rest

/-- The schedule of an attempt that finds fewer than two transactions. -/
def shortSchedule : List (Action E) := [.mainG, .mainG, .mainG, .mainG]

/-- A schedule of a full attempt in which nobody cancels: `mainG` gets to its
wait, the miner runs to its end, which releases the canceller, then `mainG`
returns. -/
def fullSchedule (result : MineResult) (node : E) : List (Action E) :=
  [.mainG, .mainG, .mainG, .mainG,
   .miningG result node, .miningG result node, .miningG result node, .miningG result node,
   .cancelG false, .cancelG false, .mainG, .mainG]

end Attempt

/-! ## Peer synchronisation (`runPeerOperation`) -/

section Peers

variable {E : Type}

/-- The URL of the status query. -/
def statusURL (ipPort : String) : String := "http://" ++ ipPort ++ "/v1/node/status"

/-- The URL of the block-range query. -/
def blocksURL (ipPort : String) (frm : Nat) : String :=
  "http://" ++ ipPort ++ "/v1/blocks/list/" ++ toString frm ++ "/latest"

/-- Go `queryPeerStatus`: the worker after the call, the returned status and the
returned error. -/
def queryPeerStatus (ops : NodeOps E) (bw : bcWorker E) (ipPort : String) :
    bcWorker E × peerStatus × Option String :=
  let completed := "bcWorker: runPeerOperation: mainG: queryPeerStatus: cempleted"
  let bw := bw.evHandler "bcWorker: runPeerOperation: mainG: queryPeerStatus: started"
  let url := statusURL ipPort
  match ops.NewRequest url with
  | some err => (bw.evHandler completed, peerStatus.zero, some err)
  | none =>
    let r := ops.Do bw.node url
    let bw : bcWorker E := { bw.record (Event.httpGet url) with node := r.2 }
    match r.1 with
    | .error err => (bw.evHandler completed, peerStatus.zero, some err)
    | .ok resp =>
      if resp.StatusCode ≠ 200 then
        match resp.Body with
        | .error err => (bw.evHandler completed, peerStatus.zero, some err)
        | .ok msg => (bw.evHandler completed, peerStatus.zero, some msg)
      else
        match resp.Body.bind ops.decodeStatus with
        | .error err => (bw.evHandler completed, peerStatus.zero, some err)
        | .ok peer =>
          let bw := bw.evHandler
            ("bcWorker: runPeerOperation: mainG: queryPeerStatus: node[" ++ ipPort
              ++ "]: latest-blknum[" ++ toString peer.LatestBlockNumber ++ "]: peer-list["
              ++ toString peer.KnownPeers ++ "]")
          (bw.evHandler completed, peer, none)

/-- The loop of `addNewPeers` over the known peers still to visit. -/
def addNewPeersLoop (ops : NodeOps E) (bw : bcWorker E) : List String → bcWorker E × Option String
  | [] => (bw, none)
  | ipPort :: rest =>
    let r := ops.addPeerNode bw.node ipPort
    let bw1 : bcWorker E := { bw.record (Event.addPeerNode ipPort) with node := r.2 }
    match r.1 with
    | some err => (bw1, some err)
    | none =>
      addNewPeersLoop ops
        (bw1.evHandler
          ("bcWorker: runPeerOperation: mainG: addNewPeers: add peer nodes: adding node "
            ++ ipPort))
        rest

/-- Go `addNewPeers`: the worker after the call and the returned error. -/
def addNewPeers (ops : NodeOps E) (bw : bcWorker E) (knownPeers : List String) :
    bcWorker E × Option String :=
  let bw := bw.evHandler "bcWorker: runPeerOperation: mainG: addNewPeers: started"
  let r := addNewPeersLoop ops bw knownPeers
  (r.1.evHandler "bcWorker: runPeerOperation: mainG: addNewPeers: cempleted", r.2)

/-- The loop of `writePeerBlocks` over the blocks still to write. -/
def writePeerBlocksLoop (ops : NodeOps E) (bw : bcWorker E) :
    List PeerBlock → bcWorker E × Option String
  | [] => (bw, none)
  | pb :: rest =>
    let bw0 := bw.evHandler
      ("bcWorker: runPeerOperation: mainG: writePeerBlocks: prevBlk[" ++ pb.PrevBlock
        ++ "]: newBlk[" ++ pb.ThisBlock ++ "]: numTrans[" ++ toString pb.Transactions ++ "]")
    let r := ops.writeNewBlockFromPeer bw0.node pb
    let bw1 : bcWorker E := { bw0.record (Event.writeNewBlockFromPeer pb) with node := r.2 }
    match r.1 with
    | some err => (bw1, some err)
    | none => writePeerBlocksLoop ops bw1 rest

/-- Go `writePeerBlocks`: the worker after the call and the returned error. -/
def writePeerBlocks (ops : NodeOps E) (bw : bcWorker E) (ipPort : String) :
    bcWorker E × Option String :=
  let completed := "bcWorker: runPeerOperation: mainG: writePeerBlocks: cempleted"
  let bw := bw.evHandler "bcWorker: runPeerOperation: mainG: writePeerBlocks: started"
  let frm := (ops.CopyLatestBlockNumber bw.node + 1) % 18446744073709551616
  let url := blocksURL ipPort frm
  match ops.NewRequest url with
  | some err => (bw.evHandler completed, some err)
  | none =>
    let r := ops.Do bw.node url
    let bw1 : bcWorker E := { bw.record (Event.httpGet url) with node := r.2 }
    match r.1 with
    | .error err => (bw1.evHandler completed, some err)
    | .ok resp =>
      if resp.StatusCode = 204 then
        ((bw1.evHandler
            "bcWorker: runPeerOperation: mainG: writePeerBlocks: no new block").evHandler
          completed, none)
      else if resp.StatusCode ≠ 200 then
        match resp.Body with
        | .error err => (bw1.evHandler completed, some err)
        | .ok msg => (bw1.evHandler completed, some msg)
      else
        match resp.Body.bind ops.decodeBlocks with
        | .error err => (bw1.evHandler completed, some err)
        | .ok pbs =>
          let w := writePeerBlocksLoop ops bw1 pbs
          (w.1.evHandler completed, w.2)

/-- Log the error of a step of `runPeerOperation`, if there is one. -/
def logError (bw : bcWorker E) (what : String) : Option String → bcWorker E
  | some err => bw.evHandler (what ++ err)
  | none => bw

/-- First step of the body of the loop of `runPeerOperation`: the status query,
its error logged.  The worker, the status held in `peer`, and the error. -/
def runPeerOperationStatus (ops : NodeOps E) (bw : bcWorker E) (ipPort : String) :
    bcWorker E × peerStatus × Option String :=
  let q := queryPeerStatus ops bw ipPort
  (logError q.1 "bcWorker: runPeerOperation: mainG: queryPeerStatus: ERROR: " q.2.2, q.2.1, q.2.2)

/-- First two steps of the body: the status query, then `addNewPeers` on the
known peers of `peer`, its error logged.  The worker, `peer`, and the error of
`addNewPeers`. -/
def runPeerOperationPeers (ops : NodeOps E) (bw : bcWorker E) (ipPort : String) :
    bcWorker E × peerStatus × Option String :=
  let s := runPeerOperationStatus ops bw ipPort
  let a := addNewPeers ops s.1 s.2.1.KnownPeers
  (logError a.1 "bcWorker: runPeerOperation: mainG: addNewPeers: ERROR: " a.2, s.2.1, a.2)

/-- The body of the loop of `runPeerOperation` for one peer: the two steps
above, then the blocks of the peer when it is ahead. -/
def runPeerOperationBody (ops : NodeOps E) (bw : bcWorker E) (ipPort : String) : bcWorker E :=
  let p := runPeerOperationPeers ops bw ipPort
  let peer := p.2.1
  let bw2 := p.1
  if peer.LatestBlockNumber > ops.CopyLatestBlockNumber bw2.node then
    let bw3 := bw2.evHandler
      ("bcWorker: runPeerOperation: mainG: writePeerBlocks: latestBlockNumber["
        ++ toString peer.LatestBlockNumber ++ "]")
    let w := writePeerBlocks ops bw3 ipPort
    logError w.1 "bcWorker: runPeerOperation: mainG: writePeerBlocks: ERROR " w.2
  else
    bw2

/-- The loop of `runPeerOperation` over the peers of the snapshot still to
visit. -/
def runPeerOperationLoop (ops : NodeOps E) (bw : bcWorker E) : List String → bcWorker E
  | [] => bw
  | ipPort :: rest => runPeerOperationLoop ops (runPeerOperationBody ops bw ipPort) rest

/-- Go `runPeerOperation`: the snapshot of the known peers is taken once, in the
order in which `range` visits it. -/
def runPeerOperation (ops : NodeOps E) (bw : bcWorker E) : bcWorker E :=
  let bw0 := bw.evHandler "bcWorker: runPeerOperation: mainG: started"
  (runPeerOperationLoop ops bw0 (ops.CopyKnownPeersList bw0.node)).evHandler
    "bcWorker: runPeerOperation: mainG: completed"

/-- The worker at the moment `runPeerOperation` reaches the peer that follows
`before` in the snapshot. -/
def runPeerOperationUpTo (ops : NodeOps E) (bw : bcWorker E) (before : List String) :
    bcWorker E :=
  runPeerOperationLoop ops (bw.evHandler "bcWorker: runPeerOperation: mainG: started") before

/-! ### Observations on a trace -/

/-- The endpoints passed to `addPeerNode`, in order. -/
def registrations (t : List Event) : List String :=
  t.filterMap fun e => match e with
    | .addPeerNode ipPort => some ipPort
    | _ => none

/-- The URLs requested, in order. -/
def requests (t : List Event) : List String :=
  t.filterMap fun e => match e with
    | .httpGet url => some url
    | _ => none

/-- The blocks passed to `writeNewBlockFromPeer`, in order. -/
def blockWrites (t : List Event) : List PeerBlock :=
  t.filterMap fun e => match e with
    | .writeNewBlockFromPeer pb => some pb
    | _ => none

end Peers

/-! ## The invariant of a mining attempt -/

namespace Attempt

variable {E : Type}

/-- Neither helper goroutine exists and `MineNewBlock` was called `c0` times. -/
def idleInv (c0 : Nat) (s : Attempt E) : Prop :=
  s.cancelG = .notSpawned ∧ s.miningG = .notSpawned ∧ s.bw.mineCalls = c0

/-- Both helper goroutines exist; the wait group counts those that have not
ended; `MineNewBlock` was called once more than `c0` as soon as the miner has
passed its call. -/
def spawnedInv (c0 : Nat) (s : Attempt E) : Prop :=
  s.cancelG ≠ .notSpawned ∧ s.miningG ≠ .notSpawned ∧
  s.wg = (if s.cancelG = .finished then 0 else 1) + (if s.miningG = .finished then 0 else 1) ∧
  s.bw.mineCalls = c0 + (if s.miningG = .started ∨ s.miningG = .call then 0 else 1)

/-- The invariant of the attempt entered on worker `bw0`. -/
def Inv (ops : NodeOps E) (bw0 : bcWorker E) (s : Attempt E) : Prop :=
  match s.mainG with
  | .start => idleInv bw0.mineCalls s ∧ s.bw.node = bw0.node
  | .drain => idleInv bw0.mineCalls s ∧ s.bw.node = bw0.node
  | .query => idleInv bw0.mineCalls s ∧ s.bw.node = bw0.node
  | .spawn => idleInv bw0.mineCalls s ∧ 2 ≤ ops.QueryMempoolLength bw0.node
  | .wait => spawnedInv bw0.mineCalls s ∧ 2 ≤ ops.QueryMempoolLength bw0.node
  | .ret false => idleInv bw0.mineCalls s ∧ ops.QueryMempoolLength bw0.node < 2
  | .ret true =>
    spawnedInv bw0.mineCalls s ∧ 2 ≤ ops.QueryMempoolLength bw0.node ∧ s.wg = 0
  | .done =>
    (idleInv bw0.mineCalls s ∧ ops.QueryMempoolLength bw0.node < 2) ∨
    (spawnedInv bw0.mineCalls s ∧ 2 ≤ ops.QueryMempoolLength bw0.node ∧ s.wg = 0)

end Attempt

/-! ## A small environment to run the worker on -/

/-- A node that knows some peers and its latest block number, next to the
status each peer of the network would report. -/
structure DemoEnv where
  mempool : Int
  peers : List String
  latest : Nat
  deriving DecidableEq, Repr

/-- Operations of the small environment: registering the endpoint `bad:0`
fails; the peer `a:1` answers the status query with latest block 3 and the known
peers `bad:0` and `c:3`, and the block-range query with one block; the peer
`down:9` cannot be reached. -/
def demoOps : NodeOps DemoEnv where
  QueryMempoolLength := fun e => e.mempool
  CopyKnownPeersList := fun e => e.peers
  CopyLatestBlockNumber := fun e => e.latest
  addPeerNode := fun e ipPort =>
    if ipPort = "bad:0" then (some "peer refused", e)
    else (none, { e with peers := e.peers ++ [ipPort] })
  writeNewBlockFromPeer := fun e _ => (none, { e with latest := e.latest + 1 })
  NewRequest := fun _ => none
  Do := fun e url =>
    if url = "http://a:1/v1/node/status" then (.ok ⟨200, .ok "status"⟩, e)
    else if url = "http://a:1/v1/blocks/list/1/latest" then (.ok ⟨200, .ok "blocks"⟩, e)
    else (.error "connection refused", e)
  decodeStatus := fun body =>
    if body = "status" then .ok ⟨"h3", 3, ["bad:0", "c:3"]⟩ else .error "bad json"
  decodeBlocks := fun body =>
    if body = "blocks" then .ok [⟨"h0", "h1", 2⟩] else .error "bad json"

/-- A worker fresh from `newBCWorker` over the small environment. -/
def demoWorker (mempool : Int) (peers : List String) : bcWorker DemoEnv :=
  bcWorker.new { mempool := mempool, peers := peers, latest := 0 }

end Worker

/-! # Theorems -/

namespace Balance

/-! ## Lemmas on map contents -/

namespace BalMap

theorem get_set (m : BalMap) (a b : String) (v : Nat) :
    (m.set a v).get b = if a = b then v else m.get b := by
  induction m with
  | nil => simp [set, get]
  | cons e rest ih =>
    obtain ⟨k, w⟩ := e
    by_cases hk : k = a
    · subst hk
      by_cases hb : k = b <;> simp [set, get, hb]
    · by_cases hb : k = b
      · subst hb
        have hak : ¬ a = k := fun h => hk h.symm
        simp [set, get, hk, hak]
      · simp [set, get, hk, hb, ih]

theorem get_set_self (m : BalMap) (a : String) (v : Nat) : (m.set a v).get a = v := by
  simp [get_set]

theorem get_set_ne (m : BalMap) {a b : String} (v : Nat) (hab : a ≠ b) :
    (m.set a v).get b = m.get b := by
  simp [get_set, hab]

theorem total_set (m : BalMap) (a : String) (v : Nat) :
    (m.set a v).total + m.get a = m.total + v := by
  induction m with
  | nil => simp [set, get, total]
  | cons e rest ih =>
    obtain ⟨k, w⟩ := e
    by_cases hk : k = a
    · simp [set, get, total, hk]; omega
    · simp only [total] at ih
      simp only [set, get, hk, if_false, total, List.map_cons, List.sum_cons]
      omega

theorem get_le_total (m : BalMap) (a : String) : m.get a ≤ m.total := by
  induction m with
  | nil => simp [get]
  | cons e rest ih =>
    obtain ⟨k, w⟩ := e
    by_cases hk : k = a
    · simp [get, total, hk]
    · simp only [get, hk, if_false, total, List.map_cons, List.sum_cons]
      simp only [total] at ih
      omega

theorem get_add_get_le_total (m : BalMap) {a b : String} (hab : a ≠ b) :
    m.get a + m.get b ≤ m.total := by
  induction m with
  | nil => simp [get]
  | cons e rest ih =>
    obtain ⟨k, w⟩ := e
    have ha := get_le_total rest a
    have hb := get_le_total rest b
    simp only [total] at ih ha hb
    by_cases hka : k = a
    · have hkb : ¬ k = b := fun h => hab (hka.symm.trans h)
      simp only [get, hka, hkb, if_true, if_false, total, List.map_cons, List.sum_cons]
      subst hka
      simp only [hkb, if_false]
      omega
    · by_cases hkb : k = b
      · simp only [get, hka, hkb, if_true, if_false, total, List.map_cons, List.sum_cons]
        subst hkb
        simp only [hka, if_false]
        omega
      · simp only [get, hka, hkb, if_false, total, List.map_cons, List.sum_cons]
        omega

theorem get_lt_of_WF {m : BalMap} (hm : m.WF) (a : String) : m.get a < uintSize := by
  obtain ⟨-, hv⟩ := hm
  induction m with
  | nil => simp [get, uintSize]
  | cons e rest ih =>
    obtain ⟨k, w⟩ := e
    by_cases hk : k = a
    · simpa [get, hk] using hv (k, w) (List.mem_cons_self _ _)
    · simp only [get, hk, if_false]
      exact ih (fun e he => hv e (List.mem_cons_of_mem _ he))

theorem keys_set (m : BalMap) (a : String) (v : Nat) :
    (m.set a v).keys = if a ∈ m.keys then m.keys else m.keys ++ [a] := by
  induction m with
  | nil => simp [set, keys]
  | cons e rest ih =>
    obtain ⟨k, w⟩ := e
    simp only [keys] at ih
    by_cases hk : k = a
    · simp [set, keys, hk]
    · have hak : ¬ a = k := fun h => hk h.symm
      by_cases hmem : a ∈ List.map Prod.fst rest
      · simp [set, keys, hk, hak, hmem, ih]
      · simp [set, keys, hk, hak, hmem, ih]

theorem mem_set {m : BalMap} {a : String} {v : Nat} {e : String × Nat}
    (he : e ∈ m.set a v) : e ∈ m ∨ e = (a, v) := by
  induction m with
  | nil => simpa [set] using he
  | cons e0 rest ih =>
    obtain ⟨k, w⟩ := e0
    by_cases hk : k = a
    · simp only [set, hk, if_true, List.mem_cons] at he
      rcases he with he | he
      · exact Or.inr he
      · exact Or.inl (List.mem_cons_of_mem _ he)
    · simp only [set, hk, if_false, List.mem_cons] at he
      rcases he with he | he
      · exact Or.inl (he ▸ List.mem_cons_self _ _)
      · rcases ih he with h1 | h1
        · exact Or.inl (List.mem_cons_of_mem _ h1)
        · exact Or.inr h1

theorem WF_set {m : BalMap} (hm : m.WF) (a : String) {v : Nat} (hv : v < uintSize) :
    (m.set a v).WF := by
  obtain ⟨hn, hb⟩ := hm
  refine ⟨?_, ?_⟩
  · rw [keys_set]
    split
    · exact hn
    · rename_i hmem
      exact List.Nodup.append hn (List.nodup_singleton a) (by simpa using hmem)
  · intro e he
    rcases mem_set he with h1 | h1
    · exact hb e h1
    · simpa [h1] using hv

end BalMap

/-! ## Lemmas on the heap -/

namespace Heap

theorem length_write (h : Heap) (r : Nat) (m : BalMap) : (h.write r m).length = h.length := by
  simp [write]

theorem read_write_same {h : Heap} {r : Nat} (hr : r < h.length) (m : BalMap) :
    (h.write r m).read r = m := by
  simp [write, read, List.getD_eq_getElem?_getD, List.getElem?_set, hr]

theorem read_write_ne (h : Heap) {r r' : Nat} (hne : r ≠ r') (m : BalMap) :
    (h.write r m).read r' = h.read r' := by
  simp [write, read, List.getD_eq_getElem?_getD, List.getElem?_set, hne]

theorem length_store (h : Heap) (r : Nat) (a : String) (v : Nat) :
    (h.store r a v).length = h.length := by
  simp [store, length_write]

theorem read_store_same {h : Heap} {r : Nat} (hr : r < h.length) (a : String) (v : Nat) :
    (h.store r a v).read r = (h.read r).set a v := by
  simp [store, read_write_same hr]

theorem read_store_ne (h : Heap) {r r' : Nat} (hne : r ≠ r') (a : String) (v : Nat) :
    (h.store r a v).read r' = h.read r' := by
  simp [store, read_write_ne h hne]

theorem read_make (h : Heap) (r : Nat) : (h.make.1).read r = h.read r := by
  simp only [make, read, List.getD_eq_getElem?_getD]
  rcases Nat.lt_trichotomy r h.length with hlt | heq | hgt
  · simp [List.getElem?_append_left hlt]
  · subst heq
    simp
  · have h1 : h.length ≤ r := Nat.le_of_lt hgt
    have h2 : (h ++ [[]]).length ≤ r := by simp; omega
    simp [List.getElem?_eq_none h1, List.getElem?_eq_none h2]

theorem length_copyInto (h : Heap) (r : Nat) (src : BalMap) :
    (h.copyInto r src).length = h.length := by
  induction src generalizing h with
  | nil => simp [copyInto]
  | cons e rest ih =>
    simp only [copyInto, List.foldl_cons] at ih ⊢
    rw [ih, length_store]

theorem read_copyInto_ne (h : Heap) {r r' : Nat} (hne : r ≠ r') (src : BalMap) :
    (h.copyInto r src).read r' = h.read r' := by
  induction src generalizing h with
  | nil => simp [copyInto]
  | cons e rest ih =>
    simp only [copyInto, List.foldl_cons] at ih ⊢
    rw [ih, read_store_ne h hne]

theorem read_copyInto_same {h : Heap} {r : Nat} (hr : r < h.length) (src : BalMap) :
    (h.copyInto r src).read r = src.foldl (fun m e => BalMap.set m e.1 e.2) (h.read r) := by
  induction src generalizing h with
  | nil => simp [copyInto]
  | cons e rest ih =>
    simp only [copyInto, List.foldl_cons] at ih ⊢
    rw [ih (by rw [length_store]; exact hr), read_store_same hr]

theorem length_addTo (h : Heap) (r : Nat) (a : String) (v : Nat) :
    (h.addTo r a v).length = h.length := by
  simp [addTo, length_store]

theorem length_subFrom (h : Heap) (r : Nat) (a : String) (v : Nat) :
    (h.subFrom r a v).length = h.length := by
  simp [subFrom, length_store]

theorem read_addTo_same {h : Heap} {r : Nat} (hr : r < h.length) (a : String) (v : Nat) :
    (h.addTo r a v).read r = (h.read r).set a (uadd ((h.read r).get a) v) := by
  simp [addTo, read_store_same hr]

theorem read_subFrom_same {h : Heap} {r : Nat} (hr : r < h.length) (a : String) (v : Nat) :
    (h.subFrom r a v).read r = (h.read r).set a (usub ((h.read r).get a) v) := by
  simp [subFrom, read_store_same hr]

theorem read_addTo_ne (h : Heap) {r r' : Nat} (hne : r ≠ r') (a : String) (v : Nat) :
    (h.addTo r a v).read r' = h.read r' := by
  simp [addTo, read_store_ne h hne]

theorem read_subFrom_ne (h : Heap) {r r' : Nat} (hne : r ≠ r') (a : String) (v : Nat) :
    (h.subFrom r a v).read r' = h.read r' := by
  simp [subFrom, read_store_ne h hne]

end Heap

/-! ## Lemmas on `ApplyTransaction` -/

namespace Sheet

/-- The accepting path of `ApplyTransaction`: no error, and the contents of the
sheet's map after the four updates. -/
theorem applyTransaction_accept {h : Heap} {bs : Sheet} (miner : String) {tx : BlockTx}
    {frm : String} (hr : bs.sheet < h.length) (hsig : tx.FromAddress = .ok frm)
    (hne : frm ≠ tx.To) (hle : tx.Value ≤ balance h bs frm) :
    (ApplyTransaction h bs miner tx).2 = none ∧
    (ApplyTransaction h bs miner tx).1.length = h.length ∧
    (ApplyTransaction h bs miner tx).1.read bs.sheet =
      let m0 := h.read bs.sheet
      let m1 := m0.set frm (usub (m0.get frm) tx.Value)
      let m2 := m1.set tx.To (uadd (m1.get tx.To) tx.Value)
      let m3 := m2.set miner (uadd (m2.get miner) (uadd tx.Gas tx.Tip))
      m3.set frm (usub (m3.get frm) (uadd tx.Gas tx.Tip)) := by
  have hle' : ¬ tx.Value > (h.read bs.sheet).get frm := by
    simpa [balance] using hle
  have h1 : bs.sheet < (h.subFrom bs.sheet frm tx.Value).length := by
    rw [Heap.length_subFrom]; exact hr
  have h2 : bs.sheet < ((h.subFrom bs.sheet frm tx.Value).addTo bs.sheet tx.To tx.Value).length := by
    rw [Heap.length_addTo]; exact h1
  have h3 : bs.sheet < (((h.subFrom bs.sheet frm tx.Value).addTo bs.sheet tx.To tx.Value).addTo
      bs.sheet miner (uadd tx.Gas tx.Tip)).length := by
    rw [Heap.length_addTo]; exact h2
  simp only [ApplyTransaction, hsig, hne, hle', if_false, true_and,
    Heap.length_subFrom, Heap.length_addTo,
    Heap.read_subFrom_same h3, Heap.read_addTo_same h2, Heap.read_addTo_same h1,
    Heap.read_subFrom_same hr]

theorem total_applyTransaction_accept {h : Heap} {bs : Sheet} (miner : String) {tx : BlockTx}
    {frm : String} (hwf : WF h bs) (htot : total h bs < uintSize)
    (hsig : tx.FromAddress = .ok frm) (hne : frm ≠ tx.To)
    (hbal : tx.Value + tx.Gas + tx.Tip ≤ balance h bs frm) :
    total (ApplyTransaction h bs miner tx).1 bs = total h bs := by
  obtain ⟨hr, hm, -⟩ := hwf
  have hle : tx.Value ≤ balance h bs frm := by omega
  obtain ⟨-, -, hread⟩ := applyTransaction_accept miner hr hsig hne hle
  simp only [total, hread]
  simp only [total, balance] at htot hbal
  generalize h.read bs.sheet = m0 at *
  have t1 := BalMap.total_set m0 frm (usub (m0.get frm) tx.Value)
  generalize hm1 : m0.set frm (usub (m0.get frm) tx.Value) = m1 at *
  have t2 := BalMap.total_set m1 tx.To (uadd (m1.get tx.To) tx.Value)
  generalize hm2 : m1.set tx.To (uadd (m1.get tx.To) tx.Value) = m2 at *
  have t3 := BalMap.total_set m2 miner (uadd (m2.get miner) (uadd tx.Gas tx.Tip))
  generalize hm3 : m2.set miner (uadd (m2.get miner) (uadd tx.Gas tx.Tip)) = m3 at *
  have t4 := BalMap.total_set m3 frm (usub (m3.get frm) (uadd tx.Gas tx.Tip))
  have g1f : m1.get frm = usub (m0.get frm) tx.Value := by
    rw [← hm1, BalMap.get_set_self]
  have g2f : m2.get frm = m1.get frm := by
    rw [← hm2, BalMap.get_set_ne _ _ (Ne.symm hne)]
  have g3f : m3.get frm = if miner = frm then uadd (m2.get miner) (uadd tx.Gas tx.Tip)
      else m2.get frm := by
    rw [← hm3, BalMap.get_set]
  have p1 := BalMap.get_add_get_le_total m1 hne
  have q2 := BalMap.get_le_total m2 miner
  have hb0 := BalMap.get_lt_of_WF hm frm
  by_cases hmf : miner = frm
  · subst hmf
    simp only [if_true] at g3f
    simp only [uadd, usub, uintSize] at *
    omega
  · have p2 := BalMap.get_add_get_le_total m2 hmf
    simp only [hmf, if_false] at g3f
    simp only [uadd, usub, uintSize] at *
    omega

end Sheet

/-! ## The ledger claims -/

/-- C1, as stated, fails when the miner is the sender: with `alice` holding 100,
sending 10 to `bob` with gas 2 and tip 1 and mining the block herself, she ends
with 90, not with 100 - 13. -/
theorem C1_counterexample :
    ¬ ∀ (h : Heap) (bs : Sheet) (miner : String) (tx : BlockTx) (frm : String),
      Sheet.WF h bs → tx.FromAddress = .ok frm → frm ≠ tx.To →
      tx.Value + tx.Gas + tx.Tip ≤ Sheet.balance h bs frm →
      (Sheet.ApplyTransaction h bs miner tx).2 = none ∧
      Sheet.balance (Sheet.ApplyTransaction h bs miner tx).1 bs frm
        = Sheet.balance h bs frm - (tx.Value + tx.Gas + tx.Tip) ∧
      Sheet.balance (Sheet.ApplyTransaction h bs miner tx).1 bs tx.To
        = Sheet.balance h bs tx.To + tx.Value ∧
      Sheet.balance (Sheet.ApplyTransaction h bs miner tx).1 bs miner
        = Sheet.balance h bs miner + (tx.Gas + tx.Tip) := by
  intro hall
  have hc := hall [[("alice", 100)]] ⟨5, 0⟩ "alice" ⟨"bob", 10, 2, 1, .ok "alice"⟩ "alice"
    (by decide) (by decide) (by decide) (by decide)
  revert hc
  decide

/-- C1, amended: for a well-formed ledger and a transaction whose recovered
sender differs from the recipient and holds at least value + gas + tip,
`ApplyTransaction` succeeds and the balance of every address `a` afterwards is
its old balance, plus the value if `a` is the recipient, plus gas + tip if `a`
is the miner, minus value + gas + tip if `a` is the sender, modulo 2^64. -/
theorem applyTransaction_balances (h : Heap) (bs : Sheet) (miner : String) (tx : BlockTx)
    (frm : String) (hwf : Sheet.WF h bs) (hsig : tx.FromAddress = .ok frm)
    (hne : frm ≠ tx.To)
    (hbal : tx.Value + tx.Gas + tx.Tip ≤ Sheet.balance h bs frm) :
    (Sheet.ApplyTransaction h bs miner tx).2 = none ∧
    ∀ a : String,
      Sheet.balance (Sheet.ApplyTransaction h bs miner tx).1 bs a =
        (Sheet.balance h bs a + (if a = tx.To then tx.Value else 0)
          + (if a = miner then tx.Gas + tx.Tip else 0)
          - (if a = frm then tx.Value + tx.Gas + tx.Tip else 0)) % uintSize := by
  obtain ⟨hr, hm, -⟩ := hwf
  have hle : tx.Value ≤ Sheet.balance h bs frm := by omega
  obtain ⟨herr, -, hread⟩ := Sheet.applyTransaction_accept miner hr hsig hne hle
  refine ⟨herr, ?_⟩
  intro a
  simp only [Sheet.balance] at hbal ⊢
  rw [hread]
  have hbf := BalMap.get_lt_of_WF hm frm
  have hba := BalMap.get_lt_of_WF hm a
  have hne' : ¬ tx.To = frm := fun e => hne e.symm
  simp only [BalMap.get_set]
  by_cases haf : a = frm
  · subst haf
    by_cases hma : miner = a
    · subst hma
      simp only [hne, hne', if_true, if_false, uadd, usub, uintSize] at *
      omega
    · have hma' : ¬ a = miner := fun e => hma e.symm
      simp only [hne, hne', hma, hma', if_true, if_false, uadd, usub, uintSize] at *
      omega
  · have haf' : ¬ frm = a := fun e => haf e.symm
    by_cases hat : a = tx.To
    · subst hat
      by_cases hma : miner = tx.To
      · simp only [hma, haf, haf', hne, hne', if_true, if_false, uadd, usub, uintSize] at *
        omega
      · have hma' : ¬ tx.To = miner := fun e => hma e.symm
        simp only [hma, hma', haf, haf', hne, hne', if_true, if_false, uadd, usub, uintSize] at *
        omega
    · have hat' : ¬ tx.To = a := fun e => hat e.symm
      by_cases hma : miner = a
      · subst hma
        by_cases hmf : miner = frm
        · exact absurd hmf haf
        · simp only [haf, haf', hat, hat', hne, hne', if_true, if_false, uadd, usub,
            uintSize] at *
          omega
      · have hma' : ¬ a = miner := fun e => hma e.symm
        simp only [hma, hma', haf, haf', hat, hat', hne, hne', if_true, if_false, uadd, usub,
          uintSize] at *
        omega

/-- Witness of `applyTransaction_balances`: `alice` (100) sends 10 to `bob`
with gas 2 and tip 1, `carol` mines. -/
theorem applyTransaction_balances_witness :
    (Sheet.ApplyTransaction [[("alice", 100)]] ⟨5, 0⟩ "carol"
        ⟨"bob", 10, 2, 1, .ok "alice"⟩).2 = none ∧
    ∀ a : String,
      Sheet.balance (Sheet.ApplyTransaction [[("alice", 100)]] ⟨5, 0⟩ "carol"
          ⟨"bob", 10, 2, 1, .ok "alice"⟩).1 ⟨5, 0⟩ a =
        (Sheet.balance [[("alice", 100)]] ⟨5, 0⟩ a
          + (if a = "bob" then 10 else 0)
          + (if a = "carol" then 2 + 1 else 0)
          - (if a = "alice" then 10 + 2 + 1 else 0)) % uintSize :=
  applyTransaction_balances [[("alice", 100)]] ⟨5, 0⟩ "carol" ⟨"bob", 10, 2, 1, .ok "alice"⟩
    "alice" (by decide) (by decide) (by decide) (by decide)

/-- C2, evaluated at the failing input: `alice` holds exactly 10 and sends 10 to
`bob` with gas 2 and tip 1, `carol` mines.  The value and the fee together
exceed her balance, yet the call returns no error and her balance wraps around
to 2^64 - 3. -/
theorem applyTransaction_fee_underflow :
    Sheet.WF [[("alice", 10)]] ⟨5, 0⟩ ∧
    Sheet.balance [[("alice", 10)]] ⟨5, 0⟩ "alice" < 10 + (2 + 1) ∧
    Sheet.ApplyTransaction [[("alice", 10)]] ⟨5, 0⟩ "carol" ⟨"bob", 10, 2, 1, .ok "alice"⟩
      = ([[("alice", 18446744073709551613), ("bob", 10), ("carol", 3)]], none) := by
  decide

/-- C3: when the recovered sender is the recipient, `ApplyTransaction` returns
the self-transfer error and leaves the heap, hence the balance map of the
sheet, as it was, whatever the balances and the amounts are. -/
theorem applyTransaction_self_transfer (h : Heap) (bs : Sheet) (miner : String)
    (tx : BlockTx) (frm : String) (hsig : tx.FromAddress = .ok frm) (heq : frm = tx.To) :
    (Sheet.ApplyTransaction h bs miner tx).2 = some (TxError.selfTransfer frm tx.To) ∧
    (Sheet.ApplyTransaction h bs miner tx).1 = h ∧
    Sheet.Values (Sheet.ApplyTransaction h bs miner tx).1 bs = Sheet.Values h bs := by
  simp [Sheet.ApplyTransaction, hsig, heq]

/-- Witness of `applyTransaction_self_transfer`: `alice` sends to herself. -/
theorem applyTransaction_self_transfer_witness :
    (Sheet.ApplyTransaction [[("alice", 100)]] ⟨5, 0⟩ "carol"
        ⟨"alice", 10, 2, 1, .ok "alice"⟩).2 = some (TxError.selfTransfer "alice" "alice") ∧
    (Sheet.ApplyTransaction [[("alice", 100)]] ⟨5, 0⟩ "carol"
        ⟨"alice", 10, 2, 1, .ok "alice"⟩).1 = [[("alice", 100)]] ∧
    Sheet.Values (Sheet.ApplyTransaction [[("alice", 100)]] ⟨5, 0⟩ "carol"
        ⟨"alice", 10, 2, 1, .ok "alice"⟩).1 ⟨5, 0⟩ = Sheet.Values [[("alice", 100)]] ⟨5, 0⟩ :=
  applyTransaction_self_transfer [[("alice", 100)]] ⟨5, 0⟩ "carol"
    ⟨"alice", 10, 2, 1, .ok "alice"⟩ "alice" (by decide) (by decide)

/-- C4, as stated, fails when the sender is also the recipient: `alice` holds 5
and sends 10 to herself; the error is the self-transfer error, not the
insufficient-balance error. -/
theorem C4_counterexample :
    ¬ ∀ (h : Heap) (bs : Sheet) (miner : String) (tx : BlockTx) (frm : String),
      tx.FromAddress = .ok frm → tx.Value > Sheet.balance h bs frm →
      (Sheet.ApplyTransaction h bs miner tx).2 = some (TxError.insufficientBalance frm) ∧
      (Sheet.ApplyTransaction h bs miner tx).1 = h := by
  intro hall
  have hc := hall [[("alice", 5)]] ⟨5, 0⟩ "carol" ⟨"alice", 10, 2, 1, .ok "alice"⟩ "alice"
    (by decide) (by decide)
  revert hc
  decide

/-- C4, amended: when the recovered sender differs from the recipient and the
value exceeds the sender's balance (0 for an absent address), `ApplyTransaction`
returns the insufficient-balance error and leaves the heap, hence the balance
map of the sheet, as it was. -/
theorem applyTransaction_insufficient (h : Heap) (bs : Sheet) (miner : String)
    (tx : BlockTx) (frm : String) (hsig : tx.FromAddress = .ok frm) (hne : frm ≠ tx.To)
    (hgt : tx.Value > Sheet.balance h bs frm) :
    (Sheet.ApplyTransaction h bs miner tx).2 = some (TxError.insufficientBalance frm) ∧
    (Sheet.ApplyTransaction h bs miner tx).1 = h ∧
    Sheet.Values (Sheet.ApplyTransaction h bs miner tx).1 bs = Sheet.Values h bs := by
  have hgt' : (h.read bs.sheet).get frm < tx.Value := by simpa [Sheet.balance] using hgt
  simp [Sheet.ApplyTransaction, hsig, hne, hgt']

/-- Witness of `applyTransaction_insufficient`: `dave` is absent from the
ledger and sends 1 to `bob`. -/
theorem applyTransaction_insufficient_witness :
    (Sheet.ApplyTransaction [[("alice", 100)]] ⟨5, 0⟩ "carol"
        ⟨"bob", 1, 0, 0, .ok "dave"⟩).2 = some (TxError.insufficientBalance "dave") ∧
    (Sheet.ApplyTransaction [[("alice", 100)]] ⟨5, 0⟩ "carol"
        ⟨"bob", 1, 0, 0, .ok "dave"⟩).1 = [[("alice", 100)]] ∧
    Sheet.Values (Sheet.ApplyTransaction [[("alice", 100)]] ⟨5, 0⟩ "carol"
        ⟨"bob", 1, 0, 0, .ok "dave"⟩).1 ⟨5, 0⟩ = Sheet.Values [[("alice", 100)]] ⟨5, 0⟩ :=
  applyTransaction_insufficient [[("alice", 100)]] ⟨5, 0⟩ "carol"
    ⟨"bob", 1, 0, 0, .ok "dave"⟩ "dave" (by decide) (by decide) (by decide)

/-- C5, as stated, fails when a credit wraps around: `bob` holds 2^64 - 1 and
receives 1 from `alice`; the call succeeds, `bob` ends with 0 and the total
falls from 2^64 to 0. -/
theorem C5_counterexample :
    ¬ ∀ (h : Heap) (bs : Sheet) (miner : String) (tx : BlockTx),
      Sheet.WF h bs → tx.WF →
      Sheet.total (Sheet.ApplyTransaction h bs miner tx).1 bs = Sheet.total h bs := by
  intro hall
  have hc := hall [[("alice", 1), ("bob", 18446744073709551615)]] ⟨5, 0⟩ "carol"
    ⟨"bob", 1, 0, 0, .ok "alice"⟩ (by decide) (by decide)
  revert hc
  decide

/-- C5, amended: for a well-formed ledger whose total is below 2^64 and a
transaction that is either rejected or whose sender holds at least
value + gas + tip, the total after `ApplyTransaction` equals the total before;
and `ApplyMiningReward` raises the total by exactly `miningReward` when the
raised total is below 2^64. -/
theorem applyTransaction_conserves_total (h : Heap) (bs : Sheet) (miner : String)
    (tx : BlockTx) (hwf : Sheet.WF h bs) (htot : Sheet.total h bs < uintSize)
    (hcov : (Sheet.ApplyTransaction h bs miner tx).2 ≠ none ∨
      ∃ frm, tx.FromAddress = .ok frm ∧
        tx.Value + tx.Gas + tx.Tip ≤ Sheet.balance h bs frm) :
    Sheet.total (Sheet.ApplyTransaction h bs miner tx).1 bs = Sheet.total h bs ∧
    (Sheet.total h bs + bs.miningReward < uintSize →
      Sheet.total (Sheet.ApplyMiningReward h bs miner).1 bs
        = Sheet.total h bs + bs.miningReward) := by
  refine ⟨?_, ?_⟩
  · cases hsig : tx.FromAddress with
    | error err => simp [Sheet.ApplyTransaction, hsig]
    | ok frm =>
      by_cases heq : frm = tx.To
      · simp [Sheet.ApplyTransaction, hsig, heq]
      · by_cases hgt : tx.Value > (h.read bs.sheet).get frm
        · simp [Sheet.ApplyTransaction, hsig, heq, hgt]
        · rcases hcov with herr | ⟨frm', hsig', hbal⟩
          · exfalso
            apply herr
            simp [Sheet.ApplyTransaction, hsig, heq, hgt]
          · rw [hsig] at hsig'
            cases hsig'
            exact Sheet.total_applyTransaction_accept miner hwf htot hsig heq hbal
  · intro hsum
    obtain ⟨hr, hm, -⟩ := hwf
    have t1 := BalMap.total_set (h.read bs.sheet) miner
      (uadd ((h.read bs.sheet).get miner) bs.miningReward)
    have q1 := BalMap.get_le_total (h.read bs.sheet) miner
    simp only [Sheet.total, Sheet.ApplyMiningReward, Heap.read_addTo_same hr] at hsum ⊢
    simp only [uadd, uintSize] at *
    omega

/-- Witness of `applyTransaction_conserves_total`: `alice` (100) sends 10 to
`bob` with gas 2 and tip 1, `carol` mines. -/
theorem applyTransaction_conserves_total_witness :
    Sheet.total (Sheet.ApplyTransaction [[("alice", 100)]] ⟨5, 0⟩ "carol"
        ⟨"bob", 10, 2, 1, .ok "alice"⟩).1 ⟨5, 0⟩ = Sheet.total [[("alice", 100)]] ⟨5, 0⟩ ∧
    (Sheet.total [[("alice", 100)]] ⟨5, 0⟩ + (⟨5, 0⟩ : Sheet).miningReward < uintSize →
      Sheet.total (Sheet.ApplyMiningReward [[("alice", 100)]] ⟨5, 0⟩ "carol").1 ⟨5, 0⟩
        = Sheet.total [[("alice", 100)]] ⟨5, 0⟩ + (⟨5, 0⟩ : Sheet).miningReward) :=
  applyTransaction_conserves_total [[("alice", 100)]] ⟨5, 0⟩ "carol"
    ⟨"bob", 10, 2, 1, .ok "alice"⟩ (by decide) (by decide)
    (Or.inr ⟨"alice", by decide, by decide⟩)

/-! ## Lemmas on copies and on the frame of a mutation -/

theorem BalMap.set_of_not_mem {m : BalMap} {a : String} (v : Nat) (ha : a ∉ m.keys) :
    m.set a v = m ++ [(a, v)] := by
  induction m with
  | nil => simp [BalMap.set]
  | cons e rest ih =>
    obtain ⟨k, w⟩ := e
    simp only [BalMap.keys, List.map_cons, List.mem_cons, not_or] at ha
    have hk : ¬ k = a := fun e => ha.1 e.symm
    simp only [BalMap.set, hk, if_false, List.cons_append]
    rw [ih (by simpa [BalMap.keys] using ha.2)]

theorem BalMap.foldl_set_eq (acc m : BalMap) (hn : (acc ++ m).keys.Nodup) :
    m.foldl (fun m e => BalMap.set m e.1 e.2) acc = acc ++ m := by
  induction m generalizing acc with
  | nil => simp
  | cons e rest ih =>
    have hnot : e.1 ∉ acc.keys := by
      simp only [BalMap.keys, List.map_append, List.map_cons] at hn
      have hd := (List.nodup_append.mp hn).2.2
      intro hmem
      exact hd hmem (List.mem_cons_self _ _)
    simp only [List.foldl_cons]
    rw [BalMap.set_of_not_mem e.2 hnot, ih]
    · simp
    · simpa using hn

theorem Sheet.values_eq (h : Heap) (bs : Sheet) :
    Sheet.Values h bs = (h.read bs.sheet).foldl (fun m e => BalMap.set m e.1 e.2) [] := by
  have hlen : h.length < (h.make.1).length := by simp [Heap.make]
  have hnew : (h.make.1).read h.length = [] := by
    simp [Heap.make, Heap.read]
  simp only [Sheet.Values]
  show ((h.make.1).copyInto h.length ((h.make.1).read bs.sheet)).read h.length = _
  rw [Heap.read_copyInto_same hlen, hnew, Heap.read_make]

theorem Sheet.values_of_WF {h : Heap} {bs : Sheet} (hwf : Sheet.WF h bs) :
    Sheet.Values h bs = h.read bs.sheet := by
  rw [Sheet.values_eq, BalMap.foldl_set_eq [] _ (by simpa using hwf.2.1.1)]
  simp

theorem Sheet.clone_frame (h : Heap) (bs : Sheet) :
    (Sheet.Clone h bs).2 = ⟨bs.miningReward, h.length⟩ ∧
    (Sheet.Clone h bs).1.length = h.length + 1 ∧
    (∀ r, r ≠ h.length → (Sheet.Clone h bs).1.read r = h.read r) ∧
    (Sheet.Clone h bs).1.read h.length
      = (h.read bs.sheet).foldl (fun m e => BalMap.set m e.1 e.2) [] := by
  have hlen : h.length < (h.make.1).length := by simp [Heap.make]
  have hnew : (h.make.1).read h.length = [] := by
    simp [Heap.make, Heap.read]
  have hc : Sheet.Clone h bs = ((h.make.1).copyInto h.length ((h.make.1).read bs.sheet),
      ⟨bs.miningReward, h.length⟩) := rfl
  rw [hc]
  refine ⟨rfl, ?_, ?_, ?_⟩
  · simp [Heap.length_copyInto, Heap.make]
  · intro r hr
    show ((h.make.1).copyInto h.length ((h.make.1).read bs.sheet)).read r = _
    rw [Heap.read_copyInto_ne _ (Ne.symm hr), Heap.read_make]
  · show ((h.make.1).copyInto h.length ((h.make.1).read bs.sheet)).read h.length = _
    rw [Heap.read_copyInto_same hlen, hnew, Heap.read_make]

/-- The frame of one mutation: the heap does not shrink, the sheet still refers
to an allocated map, and every other allocated map keeps its contents and stays
distinct from the map of the sheet. -/
theorem Mutation.run_frame (μ : Mutation) {h : Heap} {bs : Sheet} (hr : bs.sheet < h.length) :
    h.length ≤ (μ.run h bs).1.length ∧ (μ.run h bs).2.sheet < (μ.run h bs).1.length ∧
    ∀ r, r < h.length → r ≠ bs.sheet →
      (μ.run h bs).1.read r = h.read r ∧ r ≠ (μ.run h bs).2.sheet := by
  cases μ with
  | reset sheet =>
    have hc : Mutation.run h bs (.reset sheet)
        = ((h.make.1).copyInto h.length sheet, { bs with sheet := h.length }) := rfl
    rw [hc]
    refine ⟨?_, ?_, ?_⟩
    · simp [Heap.length_copyInto, Heap.make]
    · simp [Heap.length_copyInto, Heap.make]
    · intro r hrl hne
      refine ⟨?_, Nat.ne_of_lt hrl⟩
      show ((h.make.1).copyInto h.length sheet).read r = _
      rw [Heap.read_copyInto_ne _ (Ne.symm (Nat.ne_of_lt hrl)), Heap.read_make]
  | remove address =>
    refine ⟨?_, ?_, ?_⟩
    · simp [Mutation.run, Sheet.Remove, Heap.length_write]
    · simpa [Mutation.run, Sheet.Remove, Heap.length_write] using hr
    · intro r _ hne
      exact ⟨by simp [Mutation.run, Sheet.Remove, Heap.read_write_ne _ (Ne.symm hne)], hne⟩
  | applyMiningReward minerAddress =>
    refine ⟨?_, ?_, ?_⟩
    · simp [Mutation.run, Sheet.ApplyMiningReward, Heap.length_addTo]
    · simpa [Mutation.run, Sheet.ApplyMiningReward, Heap.length_addTo] using hr
    · intro r _ hne
      exact ⟨by simp [Mutation.run, Sheet.ApplyMiningReward,
        Heap.read_addTo_ne _ (Ne.symm hne)], hne⟩
  | applyTransaction minerAddress tx =>
    have hlen : (Sheet.ApplyTransaction h bs minerAddress tx).1.length = h.length := by
      unfold Sheet.ApplyTransaction
      split
      · rfl
      · split
        · rfl
        · split
          · rfl
          · simp [Heap.length_addTo, Heap.length_subFrom]
    refine ⟨?_, ?_, ?_⟩
    · simp [Mutation.run, hlen]
    · simpa [Mutation.run, hlen] using hr
    · intro r _ hne
      refine ⟨?_, hne⟩
      have hne' : bs.sheet ≠ r := Ne.symm hne
      simp only [Mutation.run]
      unfold Sheet.ApplyTransaction
      split
      · rfl
      · split
        · rfl
        · split
          · rfl
          · simp [Heap.read_addTo_ne _ hne', Heap.read_subFrom_ne _ hne']

theorem Mutation.runAll_frame (μs : List Mutation) {h : Heap} {bs : Sheet} {r : Nat}
    (hr : bs.sheet < h.length) (hrl : r < h.length) (hne : r ≠ bs.sheet) :
    (Mutation.runAll h bs μs).1.read r = h.read r := by
  induction μs generalizing h bs with
  | nil => rfl
  | cons μ rest ih =>
    obtain ⟨hlen, hs, hfr⟩ := μ.run_frame hr
    obtain ⟨hread, hne2⟩ := hfr r hrl hne
    simp only [Mutation.runAll]
    rw [ih hs (Nat.lt_of_lt_of_le hrl hlen) hne2, hread]

/-! ## The clone claim -/

/-- C6: the clone of a well-formed sheet has the same mining reward and the same
balance for every address; whatever sequence of mutations (`Reset`, `Remove`,
`ApplyMiningReward`, `ApplyTransaction`) is later run on the clone, `Values()`
of the original is what it was before `Clone`; and whatever sequence is later
run on the original, `Values()` of the clone is what it was right after
`Clone`. -/
theorem clone_independent (h : Heap) (bs : Sheet) (hwf : Sheet.WF h bs) :
    (Sheet.Clone h bs).2.miningReward = bs.miningReward ∧
    (∀ a, Sheet.balance (Sheet.Clone h bs).1 (Sheet.Clone h bs).2 a = Sheet.balance h bs a) ∧
    Sheet.Values (Sheet.Clone h bs).1 (Sheet.Clone h bs).2 = Sheet.Values h bs ∧
    (∀ μs : List Mutation,
      Sheet.Values (Mutation.runAll (Sheet.Clone h bs).1 (Sheet.Clone h bs).2 μs).1 bs
        = Sheet.Values h bs) ∧
    (∀ μs : List Mutation,
      Sheet.Values (Mutation.runAll (Sheet.Clone h bs).1 bs μs).1 (Sheet.Clone h bs).2
        = Sheet.Values (Sheet.Clone h bs).1 (Sheet.Clone h bs).2) := by
  obtain ⟨hc, hlen, hother, hnew⟩ := Sheet.clone_frame h bs
  have hr : bs.sheet < h.length := hwf.1
  have hcopy : (h.read bs.sheet).foldl (fun m e => BalMap.set m e.1 e.2) [] = h.read bs.sheet := by
    rw [BalMap.foldl_set_eq [] _ (by simpa using hwf.2.1.1)]
    simp
  have hsheet : (Sheet.Clone h bs).2.sheet = h.length := by rw [hc]
  have hold : (Sheet.Clone h bs).1.read bs.sheet = h.read bs.sheet :=
    hother _ (Nat.ne_of_lt hr)
  refine ⟨by rw [hc], ?_, ?_, ?_, ?_⟩
  · intro a
    simp only [Sheet.balance, hsheet, hnew, hcopy]
  · rw [Sheet.values_eq, Sheet.values_eq, hsheet, hnew, hcopy, hcopy]
  · intro μs
    rw [Sheet.values_eq, Sheet.values_eq]
    rw [Mutation.runAll_frame μs (by rw [hsheet, hlen]; omega) (by rw [hlen]; omega)
      (by rw [hsheet]; exact Nat.ne_of_lt hr), hold]
  · intro μs
    rw [Sheet.values_eq, Sheet.values_eq, hsheet]
    rw [Mutation.runAll_frame μs (by rw [hlen]; omega) (by rw [hlen]; omega)
      (Ne.symm (Nat.ne_of_lt hr))]

/-- Witness of `clone_independent`: a sheet holding `alice` 100 and `bob` 7. -/
theorem clone_independent_witness :
    Sheet.WF [[("alice", 100), ("bob", 7)]] ⟨5, 0⟩ ∧
    ∀ μs : List Mutation,
      Sheet.Values (Mutation.runAll (Sheet.Clone [[("alice", 100), ("bob", 7)]] ⟨5, 0⟩).1
        (Sheet.Clone [[("alice", 100), ("bob", 7)]] ⟨5, 0⟩).2 μs).1 ⟨5, 0⟩
        = Sheet.Values [[("alice", 100), ("bob", 7)]] ⟨5, 0⟩ :=
  ⟨by decide, (clone_independent [[("alice", 100), ("bob", 7)]] ⟨5, 0⟩ (by decide)).2.2.2.1⟩

end Balance

namespace Worker

variable {E : Type}

/-! ## Lemmas on the signalling channels -/

theorem Chan.trySend_of_full {c : Chan} (hc : c.cap ≤ c.buf.length) (v : Bool) :
    c.trySend v = none := by
  simp [Chan.trySend, Nat.not_lt.mpr hc]

namespace bcWorker

@[simp] theorem mineCalls_evHandler (bw : bcWorker E) (v : String) :
    (bw.evHandler v).mineCalls = bw.mineCalls := by
  simp [mineCalls, evHandler, List.count_append]

@[simp] theorem node_evHandler (bw : bcWorker E) (v : String) :
    (bw.evHandler v).node = bw.node := rfl

@[simp] theorem startMining_evHandler (bw : bcWorker E) (v : String) :
    (bw.evHandler v).startMining = bw.startMining := rfl

@[simp] theorem cancelMining_evHandler (bw : bcWorker E) (v : String) :
    (bw.evHandler v).cancelMining = bw.cancelMining := rfl

theorem signalStartMining_spec (bw : bcWorker E) :
    bw.signalStartMining.node = bw.node ∧
    bw.signalStartMining.cancelMining = bw.cancelMining ∧
    bw.signalStartMining.mineCalls = bw.mineCalls ∧
    bw.signalStartMining.startMining =
      (if bw.startMining.buf.length < bw.startMining.cap then
        { bw.startMining with buf := bw.startMining.buf ++ [true] }
      else bw.startMining) := by
  unfold signalStartMining Chan.trySend
  by_cases hroom : bw.startMining.buf.length < bw.startMining.cap <;>
    simp [hroom, mineCalls, evHandler, List.count_append]

theorem signalCancelMining_spec (bw : bcWorker E) :
    bw.signalCancelMining.node = bw.node ∧
    bw.signalCancelMining.startMining = bw.startMining ∧
    bw.signalCancelMining.mineCalls = bw.mineCalls ∧
    bw.signalCancelMining.cancelMining =
      (if bw.cancelMining.buf.length < bw.cancelMining.cap then
        { bw.cancelMining with buf := bw.cancelMining.buf ++ [true] }
      else bw.cancelMining) := by
  unfold signalCancelMining Chan.trySend
  by_cases hroom : bw.cancelMining.buf.length < bw.cancelMining.cap <;>
    simp [hroom, mineCalls, evHandler, List.count_append]

theorem WF_signal {bw : bcWorker E} (hwf : bw.WF) (sig : Signal) : (sig.run bw).WF := by
  obtain ⟨h1, h2, h3, h4⟩ := hwf
  cases sig with
  | start =>
    obtain ⟨-, hc, -, hs⟩ := signalStartMining_spec bw
    simp only [Signal.run, WF, hc, hs]
    split <;> simp_all
  | cancel =>
    obtain ⟨-, hs, -, hc⟩ := signalCancelMining_spec bw
    simp only [Signal.run, WF, hc, hs]
    split <;> simp_all

theorem WF_runAll {bw : bcWorker E} (hwf : bw.WF) (sigs : List Signal) :
    (Signal.runAll bw sigs).WF := by
  induction sigs generalizing bw with
  | nil => exact hwf
  | cons sig rest ih => exact ih (WF_signal hwf sig)

end bcWorker

/-! ## The signalling claim -/

/-- C8: for a worker whose two channels have capacity one, after any sequence of
`signalStartMining` / `signalCancelMining` calls with no receive in between at
most one Start and at most one Cancel notification is pending; a call made while
a notification of its kind is pending leaves both channels as they were; two
calls in a row leave the channels as one call does; and in every state of a
mining attempt a signal call can take its step at once. -/
theorem signal_single_slot (bw : bcWorker E) (hwf : bw.WF) :
    (∀ sigs : List Signal,
      (Signal.runAll bw sigs).startMining.pending ≤ 1 ∧
      (Signal.runAll bw sigs).cancelMining.pending ≤ 1) ∧
    (bw.startMining.pending = 1 →
      bw.signalStartMining.startMining = bw.startMining ∧
      bw.signalStartMining.cancelMining = bw.cancelMining) ∧
    (bw.cancelMining.pending = 1 →
      bw.signalCancelMining.startMining = bw.startMining ∧
      bw.signalCancelMining.cancelMining = bw.cancelMining) ∧
    (bw.signalStartMining.signalStartMining.startMining = bw.signalStartMining.startMining ∧
      bw.signalStartMining.signalStartMining.cancelMining
        = bw.signalStartMining.cancelMining) ∧
    (bw.signalCancelMining.signalCancelMining.startMining
        = bw.signalCancelMining.startMining ∧
      bw.signalCancelMining.signalCancelMining.cancelMining
        = bw.signalCancelMining.cancelMining) ∧
    (∀ (ops : NodeOps E) (s : Attempt E) (sig : Signal),
      Attempt.step ops s (.signal sig) = some { s with bw := sig.run s.bw }) := by
  refine ⟨?_, ?_, ?_, ?_, ?_, ?_⟩
  · intro sigs
    obtain ⟨h1, h2, h3, h4⟩ := bcWorker.WF_runAll hwf sigs
    simp only [Chan.pending]
    omega
  · intro hp
    obtain ⟨-, hc, -, hs⟩ := bcWorker.signalStartMining_spec bw
    obtain ⟨h1, -, -, -⟩ := hwf
    simp only [Chan.pending] at hp
    refine ⟨?_, hc⟩
    rw [hs, if_neg (by omega)]
  · intro hp
    obtain ⟨-, hs, -, hc⟩ := bcWorker.signalCancelMining_spec bw
    obtain ⟨-, h2, -, -⟩ := hwf
    simp only [Chan.pending] at hp
    refine ⟨hs, ?_⟩
    rw [hc, if_neg (by omega)]
  · obtain ⟨-, hc, -, hs⟩ := bcWorker.signalStartMining_spec bw
    obtain ⟨-, hc2, -, hs2⟩ := bcWorker.signalStartMining_spec bw.signalStartMining
    obtain ⟨h1, -, h3, -⟩ := hwf
    refine ⟨?_, hc2⟩
    rw [hs2, hs]
    split <;> simp_all
  · obtain ⟨-, hs, -, hc⟩ := bcWorker.signalCancelMining_spec bw
    obtain ⟨-, hs2, -, hc2⟩ := bcWorker.signalCancelMining_spec bw.signalCancelMining
    obtain ⟨-, h2, -, h4⟩ := hwf
    refine ⟨hs2, ?_⟩
    rw [hc2, hc]
    split <;> simp_all
  · intro ops s sig
    rfl

/-- Witness of `signal_single_slot`: a worker fresh from `newBCWorker`. -/
theorem signal_single_slot_witness :
    (demoWorker 0 []).WF ∧
    ∀ sigs : List Signal,
      (Signal.runAll (demoWorker 0 []) sigs).startMining.pending ≤ 1 ∧
      (Signal.runAll (demoWorker 0 []) sigs).cancelMining.pending ≤ 1 :=
  ⟨by decide, (signal_single_slot (demoWorker 0 []) (by decide)).1⟩

end Worker

namespace Worker

variable {E : Type}

/-! ## Lemmas on a mining attempt -/

namespace bcWorker

@[simp] theorem mineCalls_record_mine (bw : bcWorker E) :
    (bw.record Event.MineNewBlock).mineCalls = bw.mineCalls + 1 := by
  simp [mineCalls, record, List.count_append]

@[simp] theorem mineCalls_with_cancelMining (bw : bcWorker E) (c : Chan) :
    ({ bw with cancelMining := c } : bcWorker E).mineCalls = bw.mineCalls := rfl

@[simp] theorem mineCalls_with_node (bw : bcWorker E) (node : E) :
    ({ bw with node := node } : bcWorker E).mineCalls = bw.mineCalls := rfl

@[simp] theorem mineCalls_signal (bw : bcWorker E) (sig : Signal) :
    (sig.run bw).mineCalls = bw.mineCalls := by
  cases sig with
  | start => exact (signalStartMining_spec bw).2.2.1
  | cancel => exact (signalCancelMining_spec bw).2.2.1

@[simp] theorem node_signal (bw : bcWorker E) (sig : Signal) :
    (sig.run bw).node = bw.node := by
  cases sig with
  | start => exact (signalStartMining_spec bw).1
  | cancel => exact (signalCancelMining_spec bw).1

end bcWorker

namespace Attempt

theorem Inv_init (ops : NodeOps E) (bw : bcWorker E) : Inv ops bw (init bw) := by
  simp [Inv, init, idleInv]

theorem idleInv_congr {c0 : Nat} {s s1 : Attempt E} (h : idleInv c0 s)
    (h1 : s1.cancelG = s.cancelG) (h2 : s1.miningG = s.miningG)
    (h3 : s1.bw.mineCalls = s.bw.mineCalls) : idleInv c0 s1 := by
  unfold idleInv at h ⊢
  rw [h1, h2, h3]
  exact h

theorem spawnedInv_congr {c0 : Nat} {s s1 : Attempt E} (h : spawnedInv c0 s)
    (h1 : s1.cancelG = s.cancelG) (h2 : s1.miningG = s.miningG)
    (h3 : s1.bw.mineCalls = s.bw.mineCalls) (h4 : s1.wg = s.wg) : spawnedInv c0 s1 := by
  unfold spawnedInv at h ⊢
  rw [h1, h2, h3, h4]
  exact h

theorem Inv_step_main {ops : NodeOps E} {bw0 : bcWorker E} {s s1 : Attempt E}
    (hinv : Inv ops bw0 s) (hstep : step ops s .mainG = some s1) : Inv ops bw0 s1 := by
  unfold step at hstep
  unfold Inv at hinv
  cases hm : s.mainG with
  | start =>
    simp only [hm, Option.some.injEq] at hstep hinv
    subst hstep
    unfold Inv
    dsimp only
    exact ⟨idleInv_congr hinv.1 rfl rfl (by simp), by simpa using hinv.2⟩
  | drain =>
    simp only [hm] at hstep hinv
    split at hstep <;> simp only [Option.some.injEq] at hstep <;> subst hstep <;>
      unfold Inv <;> dsimp only
    · exact ⟨idleInv_congr hinv.1 rfl rfl (by simp), by simpa using hinv.2⟩
    · exact ⟨idleInv_congr hinv.1 rfl rfl rfl, hinv.2⟩
  | query =>
    simp only [hm] at hstep hinv
    rw [hinv.2] at hstep
    split at hstep <;> rename_i hlen <;> simp only [Option.some.injEq] at hstep <;>
      subst hstep <;> unfold Inv <;> dsimp only
    · exact ⟨idleInv_congr hinv.1 rfl rfl (by simp), hlen⟩
    · exact ⟨idleInv_congr hinv.1 rfl rfl rfl, by omega⟩
  | spawn =>
    simp only [hm, Option.some.injEq] at hstep hinv
    subst hstep
    unfold Inv
    dsimp only
    refine ⟨?_, hinv.2⟩
    unfold spawnedInv
    dsimp only
    exact ⟨by simp, by simp, by simp, by simpa using hinv.1.2.2⟩
  | wait =>
    simp only [hm] at hstep hinv
    split at hstep
    · rename_i hwg
      simp only [Option.some.injEq] at hstep
      subst hstep
      unfold Inv
      dsimp only
      exact ⟨spawnedInv_congr hinv.1 rfl rfl rfl rfl, hinv.2, hwg⟩
    · simp at hstep
  | ret created =>
    simp only [hm, Option.some.injEq] at hstep
    subst hstep
    unfold Inv
    dsimp only
    cases created with
    | false =>
      simp only [hm] at hinv
      exact Or.inl ⟨idleInv_congr hinv.1 rfl rfl (by simp), hinv.2⟩
    | true =>
      simp only [hm] at hinv
      exact Or.inr ⟨spawnedInv_congr hinv.1 rfl rfl (by simp) rfl, hinv.2.1, hinv.2.2⟩
  | done =>
    simp [hm] at hstep

theorem Inv_of_helper {ops : NodeOps E} {bw0 : bcWorker E} {s s1 : Attempt E}
    (hinv : Inv ops bw0 s) (hmain : s1.mainG = s.mainG) (hwg : s.wg = 0 → s1.wg = 0)
    (hnode : s.miningG = .notSpawned → s1.bw.node = s.bw.node)
    (hidle : idleInv bw0.mineCalls s → idleInv bw0.mineCalls s1)
    (hsp : spawnedInv bw0.mineCalls s → spawnedInv bw0.mineCalls s1) :
    Inv ops bw0 s1 := by
  unfold Inv at hinv ⊢
  rw [hmain]
  cases hm : s.mainG with
  | start =>
    simp only [hm] at hinv ⊢
    exact ⟨hidle hinv.1, (hnode hinv.1.2.1).trans hinv.2⟩
  | drain =>
    simp only [hm] at hinv ⊢
    exact ⟨hidle hinv.1, (hnode hinv.1.2.1).trans hinv.2⟩
  | query =>
    simp only [hm] at hinv ⊢
    exact ⟨hidle hinv.1, (hnode hinv.1.2.1).trans hinv.2⟩
  | spawn =>
    simp only [hm] at hinv ⊢
    exact ⟨hidle hinv.1, hinv.2⟩
  | wait =>
    simp only [hm] at hinv ⊢
    exact ⟨hsp hinv.1, hinv.2⟩
  | ret created =>
    cases created with
    | false =>
      simp only [hm] at hinv ⊢
      exact ⟨hidle hinv.1, hinv.2⟩
    | true =>
      simp only [hm] at hinv ⊢
      exact ⟨hsp hinv.1, hinv.2.1, hwg hinv.2.2⟩
  | done =>
    simp only [hm] at hinv ⊢
    rcases hinv with h1 | h1
    · exact Or.inl ⟨hidle h1.1, h1.2⟩
    · exact Or.inr ⟨hsp h1.1, h1.2.1, hwg h1.2.2⟩

theorem Inv_step {ops : NodeOps E} {bw0 : bcWorker E} {s s1 : Attempt E} (a : Action E)
    (hinv : Inv ops bw0 s) (hstep : step ops s a = some s1) : Inv ops bw0 s1 := by
  cases a with
  | mainG => exact Inv_step_main hinv hstep
  | signal sig =>
    simp only [step, Option.some.injEq] at hstep
    subst hstep
    exact Inv_of_helper hinv rfl (fun h => h) (fun _ => by simp)
      (fun h => by simpa [idleInv] using h) (fun h => by simpa [spawnedInv] using h)
  | cancelG fromChannel =>
    unfold step at hstep
    cases hc : s.cancelG with
    | notSpawned => simp [hc] at hstep
    | finished => simp [hc] at hstep
    | select =>
      simp only [hc] at hstep
      have key : ∀ bw1 : bcWorker E, bw1.node = s.bw.node → bw1.mineCalls = s.bw.mineCalls →
          Inv ops bw0 { s with bw := bw1, cancelG := .exit } := by
        intro bw1 hn hmc
        refine Inv_of_helper hinv rfl (fun h => h) (fun _ => hn) ?_ ?_
        · intro h
          simp [idleInv, hc] at h
        · intro h
          simp_all [spawnedInv]
      split at hstep
      · split at hstep
        · simp only [Option.some.injEq] at hstep
          subst hstep
          exact key _ (by simp) (by simp)
        · simp at hstep
      · split at hstep
        · simp only [Option.some.injEq] at hstep
          subst hstep
          exact key _ (by simp) (by simp)
        · simp at hstep
    | exit =>
      simp only [hc, Option.some.injEq] at hstep
      subst hstep
      refine Inv_of_helper hinv rfl ?_ (fun _ => rfl) ?_ ?_
      · intro h
        simp [h]
      · intro h
        simp [idleInv, hc] at h
      · intro h
        simp_all [spawnedInv]
  | miningG result node =>
    unfold step at hstep
    cases hg : s.miningG with
    | notSpawned => simp [hg] at hstep
    | finished => simp [hg] at hstep
    | started =>
      simp only [hg, Option.some.injEq] at hstep
      subst hstep
      refine Inv_of_helper hinv rfl (fun h => h) (fun _ => by simp) ?_ ?_
      · intro h
        simp [idleInv, hg] at h
      · intro h
        simp_all [spawnedInv]
    | call =>
      simp only [hg, Option.some.injEq] at hstep
      subst hstep
      refine Inv_of_helper hinv rfl (fun h => h) (fun h => by simp [hg] at h) ?_ ?_
      · intro h
        simp [idleInv, hg] at h
      · intro h
        simp_all [spawnedInv]
    | inCall =>
      simp only [hg, Option.some.injEq] at hstep
      subst hstep
      refine Inv_of_helper hinv rfl (fun h => h) (fun h => by simp [hg] at h) ?_ ?_
      · intro h
        simp [idleInv, hg] at h
      · intro h
        have hcalls : ∀ bw2 : bcWorker E, bw2.mineCalls = s.bw.mineCalls →
            spawnedInv bw0.mineCalls { s with bw := bw2, miningG := .exit } := by
          intro bw2 h2
          simp_all [spawnedInv]
        apply hcalls
        cases result with
        | notEnoughTransactions => simp
        | failed err => by_cases hd : s.ctxDone <;> simp [hd]
        | block prevBlock hash numTrans => simp
    | exit =>
      simp only [hg, Option.some.injEq] at hstep
      subst hstep
      refine Inv_of_helper hinv rfl ?_ (fun h => by simp [hg] at h) ?_ ?_
      · intro h
        simp [h]
      · intro h
        simp [idleInv, hg] at h
      · intro h
        simp_all [spawnedInv]

theorem Inv_run {ops : NodeOps E} {bw0 : bcWorker E} (sched : List (Action E))
    {s s1 : Attempt E} (hinv : Inv ops bw0 s) (hrun : run ops s sched = some s1) :
    Inv ops bw0 s1 := by
  induction sched generalizing s with
  | nil =>
    simp only [run, Option.some.injEq] at hrun
    exact hrun ▸ hinv
  | cons a rest ih =>
    simp only [run] at hrun
    cases hs : step ops s a with
    | none => simp [hs] at hrun
    | some s2 =>
      simp only [hs] at hrun
      exact ih (Inv_step a hinv hs) hrun

theorem idle_of_Inv {ops : NodeOps E} {bw0 : bcWorker E} {s : Attempt E}
    (hinv : Inv ops bw0 s) (hlen : ops.QueryMempoolLength bw0.node < 2) :
    idleInv bw0.mineCalls s := by
  unfold Inv at hinv
  cases hm : s.mainG with
  | start => simp only [hm] at hinv; exact hinv.1
  | drain => simp only [hm] at hinv; exact hinv.1
  | query => simp only [hm] at hinv; exact hinv.1
  | spawn => simp only [hm] at hinv; omega
  | wait => simp only [hm] at hinv; omega
  | ret created =>
    cases created with
    | false => simp only [hm] at hinv; exact hinv.1
    | true => simp only [hm] at hinv; omega
  | done =>
    simp only [hm] at hinv
    rcases hinv with h1 | h1
    · exact h1.1
    · omega

theorem calls_of_Inv {ops : NodeOps E} {bw0 : bcWorker E} {s : Attempt E}
    (hinv : Inv ops bw0 s) (hlen : 2 ≤ ops.QueryMempoolLength bw0.node) :
    s.bw.mineCalls ≤ bw0.mineCalls + 1 ∧
    (s.mainG = .done → s.bw.mineCalls = bw0.mineCalls + 1) := by
  have hidle : idleInv bw0.mineCalls s → s.bw.mineCalls ≤ bw0.mineCalls + 1 := by
    intro h
    have := h.2.2
    omega
  have hsp : spawnedInv bw0.mineCalls s → s.bw.mineCalls ≤ bw0.mineCalls + 1 := by
    intro h
    have := h.2.2.2
    split at this <;> omega
  have hfin : spawnedInv bw0.mineCalls s → s.wg = 0 →
      s.bw.mineCalls = bw0.mineCalls + 1 := by
    intro h hwg
    obtain ⟨-, -, h3, h4⟩ := h
    have hmf : s.miningG = .finished := by
      by_contra hne
      simp only [hne, if_false] at h3
      omega
    simpa [hmf] using h4
  unfold Inv at hinv
  cases hm : s.mainG with
  | start => simp only [hm] at hinv; exact ⟨hidle hinv.1, by simp⟩
  | drain => simp only [hm] at hinv; exact ⟨hidle hinv.1, by simp⟩
  | query => simp only [hm] at hinv; exact ⟨hidle hinv.1, by simp⟩
  | spawn => simp only [hm] at hinv; exact ⟨hidle hinv.1, by simp⟩
  | wait => simp only [hm] at hinv; exact ⟨hsp hinv.1, by simp⟩
  | ret created =>
    cases created with
    | false => simp only [hm] at hinv; exact ⟨hidle hinv.1, by simp⟩
    | true => simp only [hm] at hinv; exact ⟨hsp hinv.1, by simp⟩
  | done =>
    simp only [hm] at hinv
    rcases hinv with h1 | h1
    · omega
    · exact ⟨hsp h1.1, fun _ => hfin h1.1 h1.2.2⟩

end Attempt

end Worker

namespace Worker

variable {E : Type}

theorem Attempt.run_shortSchedule (ops : NodeOps E) (bw : bcWorker E)
    (hlen : ops.QueryMempoolLength bw.node < 2) :
    ∃ s, Attempt.run ops (Attempt.init bw) Attempt.shortSchedule = some s ∧
      s.mainG = .done ∧ s.bw.node = bw.node ∧ s.bw.startMining = bw.startMining ∧
      s.bw.cancelMining = { bw.cancelMining with buf := bw.cancelMining.buf.tail } := by
  obtain ⟨node, startMining, ⟨cap, buf⟩, trace⟩ := bw
  simp only at hlen
  cases buf with
  | nil =>
    simp [Attempt.run, Attempt.step, Attempt.init, Attempt.shortSchedule, Chan.tryRecv,
      bcWorker.evHandler, hlen]
  | cons v rest =>
    simp [Attempt.run, Attempt.step, Attempt.init, Attempt.shortSchedule, Chan.tryRecv,
      bcWorker.evHandler, hlen]

theorem Attempt.run_fullSchedule (ops : NodeOps E) (bw : bcWorker E)
    (hlen : 2 ≤ ops.QueryMempoolLength bw.node) (result : MineResult) (node : E) :
    ∃ s, Attempt.run ops (Attempt.init bw) (Attempt.fullSchedule result node) = some s ∧
      s.mainG = .done := by
  obtain ⟨node0, startMining, ⟨cap, buf⟩, trace⟩ := bw
  simp only at hlen
  have hlen' : ¬ ops.QueryMempoolLength node0 < 2 := by omega
  cases buf with
  | nil =>
    simp [Attempt.run, Attempt.step, Attempt.init, Attempt.fullSchedule, Chan.tryRecv,
      bcWorker.evHandler, bcWorker.record, hlen']
  | cons v rest =>
    simp [Attempt.run, Attempt.step, Attempt.init, Attempt.fullSchedule, Chan.tryRecv,
      bcWorker.evHandler, bcWorker.record, hlen']

/-! ## The mining claim -/

/-- C7: when the mempool holds fewer than two transactions, then along every
schedule of the attempt `MineNewBlock` is never called and neither the miner nor
the canceller is spawned, and the attempt returns after four steps of its own,
having taken at most the oldest pending Cancel notification and touched nothing
else; when it holds two or more, `MineNewBlock` is called at most once along
every schedule, exactly once by the time the attempt has returned, and the
attempt does return when nobody cancels. -/
theorem runMiningOperation_mine_calls (ops : NodeOps E) (bw : bcWorker E) :
    (ops.QueryMempoolLength bw.node < 2 →
      (∀ (sched : List (Action E)) (s : Attempt E),
        Attempt.run ops (Attempt.init bw) sched = some s →
        s.bw.mineCalls = bw.mineCalls ∧ s.cancelG = .notSpawned ∧
          s.miningG = .notSpawned) ∧
      (∃ s, Attempt.run ops (Attempt.init bw) Attempt.shortSchedule = some s ∧
        s.mainG = .done ∧ s.bw.node = bw.node ∧ s.bw.startMining = bw.startMining ∧
        s.bw.cancelMining = { bw.cancelMining with buf := bw.cancelMining.buf.tail })) ∧
    (2 ≤ ops.QueryMempoolLength bw.node →
      (∀ (sched : List (Action E)) (s : Attempt E),
        Attempt.run ops (Attempt.init bw) sched = some s →
        s.bw.mineCalls ≤ bw.mineCalls + 1 ∧
          (s.mainG = .done → s.bw.mineCalls = bw.mineCalls + 1)) ∧
      (∀ (result : MineResult) (node : E),
        ∃ s, Attempt.run ops (Attempt.init bw) (Attempt.fullSchedule result node) = some s ∧
          s.mainG = .done)) := by
  refine ⟨fun hlen => ⟨?_, Attempt.run_shortSchedule ops bw hlen⟩,
    fun hlen => ⟨?_, Attempt.run_fullSchedule ops bw hlen⟩⟩
  · intro sched s hrun
    have hinv := Attempt.Inv_run sched (Attempt.Inv_init ops bw) hrun
    obtain ⟨h1, h2, h3⟩ := Attempt.idle_of_Inv hinv hlen
    exact ⟨h3, h1, h2⟩
  · intro sched s hrun
    have hinv := Attempt.Inv_run sched (Attempt.Inv_init ops bw) hrun
    exact Attempt.calls_of_Inv hinv hlen

/-- Witness of `runMiningOperation_mine_calls`: one transaction in the mempool,
then three. -/
theorem runMiningOperation_mine_calls_witness :
    (demoOps.QueryMempoolLength (demoWorker 1 []).node < 2 ∧
      ∀ (sched : List (Action DemoEnv)) (s : Attempt DemoEnv),
        Attempt.run demoOps (Attempt.init (demoWorker 1 [])) sched = some s →
        s.bw.mineCalls = (demoWorker 1 []).mineCalls ∧ s.cancelG = .notSpawned ∧
          s.miningG = .notSpawned) ∧
    (2 ≤ demoOps.QueryMempoolLength (demoWorker 3 []).node ∧
      ∀ (sched : List (Action DemoEnv)) (s : Attempt DemoEnv),
        Attempt.run demoOps (Attempt.init (demoWorker 3 [])) sched = some s →
        s.bw.mineCalls ≤ (demoWorker 3 []).mineCalls + 1 ∧
          (s.mainG = .done → s.bw.mineCalls = (demoWorker 3 []).mineCalls + 1)) :=
  ⟨⟨by decide, ((runMiningOperation_mine_calls demoOps (demoWorker 1 [])).1 (by decide)).1⟩,
   ⟨by decide, ((runMiningOperation_mine_calls demoOps (demoWorker 3 [])).2 (by decide)).1⟩⟩

end Worker

namespace Worker

variable {E : Type}

/-! ## Lemmas on the trace of the peer synchronisation -/

section Observations

@[simp] theorem registrations_append (t u : List Event) :
    registrations (t ++ u) = registrations t ++ registrations u := by
  simp [registrations, List.filterMap_append]

@[simp] theorem requests_append (t u : List Event) :
    requests (t ++ u) = requests t ++ requests u := by
  simp [requests, List.filterMap_append]

@[simp] theorem blockWrites_append (t u : List Event) :
    blockWrites (t ++ u) = blockWrites t ++ blockWrites u := by
  simp [blockWrites, List.filterMap_append]

@[simp] theorem trace_evHandler (bw : bcWorker E) (v : String) :
    (bw.evHandler v).trace = bw.trace ++ [Event.ev v] := rfl

@[simp] theorem trace_record (bw : bcWorker E) (e : Event) :
    (bw.record e).trace = bw.trace ++ [e] := rfl

@[simp] theorem node_record (bw : bcWorker E) (e : Event) :
    (bw.record e).node = bw.node := rfl

@[simp] theorem registrations_nil : registrations [] = [] := rfl

@[simp] theorem registrations_cons_ev (t : List Event) (v : String) :
    registrations (Event.ev v :: t) = registrations t := rfl

@[simp] theorem registrations_cons_httpGet (t : List Event) (url : String) :
    registrations (Event.httpGet url :: t) = registrations t := rfl

@[simp] theorem registrations_cons_write (t : List Event) (pb : PeerBlock) :
    registrations (Event.writeNewBlockFromPeer pb :: t) = registrations t := rfl

@[simp] theorem registrations_cons_add (t : List Event) (ipPort : String) :
    registrations (Event.addPeerNode ipPort :: t) = ipPort :: registrations t := rfl

@[simp] theorem registrations_cons_mine (t : List Event) :
    registrations (Event.MineNewBlock :: t) = registrations t := rfl

@[simp] theorem requests_nil : requests [] = [] := rfl

@[simp] theorem requests_cons_ev (t : List Event) (v : String) :
    requests (Event.ev v :: t) = requests t := rfl

@[simp] theorem requests_cons_httpGet (t : List Event) (url : String) :
    requests (Event.httpGet url :: t) = url :: requests t := rfl

@[simp] theorem requests_cons_write (t : List Event) (pb : PeerBlock) :
    requests (Event.writeNewBlockFromPeer pb :: t) = requests t := rfl

@[simp] theorem requests_cons_add (t : List Event) (ipPort : String) :
    requests (Event.addPeerNode ipPort :: t) = requests t := rfl

@[simp] theorem requests_cons_mine (t : List Event) :
    requests (Event.MineNewBlock :: t) = requests t := rfl

@[simp] theorem blockWrites_nil : blockWrites [] = [] := rfl

@[simp] theorem blockWrites_cons_ev (t : List Event) (v : String) :
    blockWrites (Event.ev v :: t) = blockWrites t := rfl

@[simp] theorem blockWrites_cons_httpGet (t : List Event) (url : String) :
    blockWrites (Event.httpGet url :: t) = blockWrites t := rfl

@[simp] theorem blockWrites_cons_write (t : List Event) (pb : PeerBlock) :
    blockWrites (Event.writeNewBlockFromPeer pb :: t) = pb :: blockWrites t := rfl

@[simp] theorem blockWrites_cons_add (t : List Event) (ipPort : String) :
    blockWrites (Event.addPeerNode ipPort :: t) = blockWrites t := rfl

@[simp] theorem blockWrites_cons_mine (t : List Event) :
    blockWrites (Event.MineNewBlock :: t) = blockWrites t := rfl

theorem trace_logError (bw : bcWorker E) (what : String) (err : Option String) :
    registrations (logError bw what err).trace = registrations bw.trace ∧
    requests (logError bw what err).trace = requests bw.trace ∧
    blockWrites (logError bw what err).trace = blockWrites bw.trace ∧
    (logError bw what err).node = bw.node := by
  cases err <;> simp [logError]

end Observations

/-! ### `queryPeerStatus` -/

/-- A failed status query returns the zero status. -/
theorem queryPeerStatus_zero_of_error (ops : NodeOps E) (bw : bcWorker E) (ipPort : String)
    {err : String} (hfail : (queryPeerStatus ops bw ipPort).2.2 = some err) :
    (queryPeerStatus ops bw ipPort).2.1 = peerStatus.zero := by
  unfold queryPeerStatus at hfail ⊢
  simp only at hfail ⊢
  repeat' split
  all_goals first
    | rfl
    | simp_all

/-- What a status query adds to the trace: no registration, no block, and the
one request to the status URL when the request could be built. -/
theorem queryPeerStatus_trace (ops : NodeOps E) (bw : bcWorker E) (ipPort : String) :
    registrations (queryPeerStatus ops bw ipPort).1.trace = registrations bw.trace ∧
    blockWrites (queryPeerStatus ops bw ipPort).1.trace = blockWrites bw.trace ∧
    requests (queryPeerStatus ops bw ipPort).1.trace =
      requests bw.trace ++
        (if ops.NewRequest (statusURL ipPort) = none then [statusURL ipPort] else []) := by
  unfold queryPeerStatus
  simp only
  split
  · rename_i h1
    simp [h1]
  · rename_i h1
    split
    · simp [h1]
    · split
      · split <;> simp [h1]
      · split <;> simp [h1]

end Worker

namespace Worker

variable {E : Type}

/-! ### `addNewPeers` and `writePeerBlocks` -/

theorem addNewPeersLoop_trace (ops : NodeOps E) (bw : bcWorker E) (ks : List String) :
    requests (addNewPeersLoop ops bw ks).1.trace = requests bw.trace ∧
    blockWrites (addNewPeersLoop ops bw ks).1.trace = blockWrites bw.trace ∧
    ((addNewPeersLoop ops bw ks).2 = none →
      registrations (addNewPeersLoop ops bw ks).1.trace = registrations bw.trace ++ ks) ∧
    (∀ err, (addNewPeersLoop ops bw ks).2 = some err →
      ∃ (done : List String) (failed : String) (rest : List String) (node : E),
        ks = done ++ failed :: rest ∧ (ops.addPeerNode node failed).1 = some err ∧
        registrations (addNewPeersLoop ops bw ks).1.trace
          = registrations bw.trace ++ done ++ [failed]) := by
  induction ks generalizing bw with
  | nil => simp [addNewPeersLoop]
  | cons k rest ih =>
    cases hk : (ops.addPeerNode bw.node k).1 with
    | some e =>
      simp only [addNewPeersLoop, hk]
      refine ⟨by simp, by simp, by simp, ?_⟩
      intro err herr
      simp only [Option.some.injEq] at herr
      subst herr
      exact ⟨[], k, rest, bw.node, by simp, hk, by simp⟩
    | none =>
      simp only [addNewPeersLoop, hk]
      obtain ⟨h1, h2, h3, h4⟩ := ih
        (({ bw.record (Event.addPeerNode k) with node := (ops.addPeerNode bw.node k).2 } :
            bcWorker E).evHandler
          ("bcWorker: runPeerOperation: mainG: addNewPeers: add peer nodes: adding node "
            ++ k))
      refine ⟨?_, ?_, ?_, ?_⟩
      · rw [h1]; simp
      · rw [h2]; simp
      · intro hnone
        rw [h3 hnone]; simp
      · intro err herr
        obtain ⟨done, failed, rest', node, hks, hfail, hreg⟩ := h4 err herr
        refine ⟨k :: done, failed, rest', node, by simp [hks], hfail, ?_⟩
        rw [hreg]; simp

theorem addNewPeers_trace (ops : NodeOps E) (bw : bcWorker E) (ks : List String) :
    requests (addNewPeers ops bw ks).1.trace = requests bw.trace ∧
    blockWrites (addNewPeers ops bw ks).1.trace = blockWrites bw.trace ∧
    ((addNewPeers ops bw ks).2 = none →
      registrations (addNewPeers ops bw ks).1.trace = registrations bw.trace ++ ks) ∧
    (∀ err, (addNewPeers ops bw ks).2 = some err →
      ∃ (done : List String) (failed : String) (rest : List String) (node : E),
        ks = done ++ failed :: rest ∧ (ops.addPeerNode node failed).1 = some err ∧
        registrations (addNewPeers ops bw ks).1.trace
          = registrations bw.trace ++ done ++ [failed]) := by
  obtain ⟨h1, h2, h3, h4⟩ := addNewPeersLoop_trace ops
    (bw.evHandler "bcWorker: runPeerOperation: mainG: addNewPeers: started") ks
  simp only [addNewPeers]
  refine ⟨?_, ?_, ?_, ?_⟩
  · simp [h1]
  · simp [h2]
  · intro hnone
    simp [h3 hnone]
  · intro err herr
    obtain ⟨done, failed, rest, node, hks, hfail, hreg⟩ := h4 err herr
    exact ⟨done, failed, rest, node, hks, hfail, by simp [hreg]⟩

theorem addNewPeers_nil (ops : NodeOps E) (bw : bcWorker E) :
    addNewPeers ops bw [] =
      ((bw.evHandler "bcWorker: runPeerOperation: mainG: addNewPeers: started").evHandler
        "bcWorker: runPeerOperation: mainG: addNewPeers: cempleted", none) := rfl

theorem writePeerBlocksLoop_trace (ops : NodeOps E) (bw : bcWorker E) (pbs : List PeerBlock) :
    requests (writePeerBlocksLoop ops bw pbs).1.trace = requests bw.trace ∧
    registrations (writePeerBlocksLoop ops bw pbs).1.trace = registrations bw.trace := by
  induction pbs generalizing bw with
  | nil => simp [writePeerBlocksLoop]
  | cons pb rest ih =>
    cases hk : (ops.writeNewBlockFromPeer bw.node pb).1 with
    | some e => simp [writePeerBlocksLoop, hk]
    | none =>
      simp only [writePeerBlocksLoop, bcWorker.node_evHandler, hk]
      rw [(ih _).1, (ih _).2]
      simp

/-- What `writePeerBlocks` adds to the trace: no registration, and the one
request for the blocks after the local head when the request could be built. -/
theorem writePeerBlocks_trace (ops : NodeOps E) (bw : bcWorker E) (ipPort : String) :
    registrations (writePeerBlocks ops bw ipPort).1.trace = registrations bw.trace ∧
    requests (writePeerBlocks ops bw ipPort).1.trace =
      requests bw.trace ++
        (if ops.NewRequest
            (blocksURL ipPort ((ops.CopyLatestBlockNumber bw.node + 1) % 18446744073709551616))
            = none then
          [blocksURL ipPort ((ops.CopyLatestBlockNumber bw.node + 1) % 18446744073709551616)]
        else []) := by
  unfold writePeerBlocks
  simp only
  split
  · rename_i h1
    simp at h1
    simp [h1]
  · rename_i h1
    simp at h1
    repeat' split
    all_goals
      simp [h1, (writePeerBlocksLoop_trace ops _ _).1, (writePeerBlocksLoop_trace ops _ _).2]

end Worker

namespace Worker

variable {E : Type}

/-! ### The body and the loop of `runPeerOperation` -/

theorem runPeerOperationStatus_trace (ops : NodeOps E) (bw : bcWorker E) (ipPort : String) :
    registrations (runPeerOperationStatus ops bw ipPort).1.trace = registrations bw.trace ∧
    blockWrites (runPeerOperationStatus ops bw ipPort).1.trace = blockWrites bw.trace ∧
    requests (runPeerOperationStatus ops bw ipPort).1.trace =
      requests bw.trace ++
        (if ops.NewRequest (statusURL ipPort) = none then [statusURL ipPort] else []) := by
  obtain ⟨h1, h2, h3⟩ := queryPeerStatus_trace ops bw ipPort
  obtain ⟨g1, g2, g3, -⟩ := trace_logError (queryPeerStatus ops bw ipPort).1
    "bcWorker: runPeerOperation: mainG: queryPeerStatus: ERROR: "
    (queryPeerStatus ops bw ipPort).2.2
  simp only [runPeerOperationStatus]
  exact ⟨g1.trans h1, g3.trans h2, g2.trans h3⟩

theorem runPeerOperationPeers_trace (ops : NodeOps E) (bw : bcWorker E) (ipPort : String) :
    requests (runPeerOperationPeers ops bw ipPort).1.trace
      = requests (runPeerOperationStatus ops bw ipPort).1.trace ∧
    blockWrites (runPeerOperationPeers ops bw ipPort).1.trace = blockWrites bw.trace := by
  obtain ⟨-, h2, -⟩ := runPeerOperationStatus_trace ops bw ipPort
  obtain ⟨a1, a2, -, -⟩ := addNewPeers_trace ops (runPeerOperationStatus ops bw ipPort).1
    (runPeerOperationStatus ops bw ipPort).2.1.KnownPeers
  obtain ⟨-, g2, g3, -⟩ := trace_logError
    (addNewPeers ops (runPeerOperationStatus ops bw ipPort).1
      (runPeerOperationStatus ops bw ipPort).2.1.KnownPeers).1
    "bcWorker: runPeerOperation: mainG: addNewPeers: ERROR: "
    (addNewPeers ops (runPeerOperationStatus ops bw ipPort).1
      (runPeerOperationStatus ops bw ipPort).2.1.KnownPeers).2
  simp only [runPeerOperationPeers]
  exact ⟨g2.trans a1, (g3.trans a2).trans h2⟩

/-- The requests of one turn of the loop: those of the status query, then the
block-range request when the peer is ahead of the local head. -/
theorem runPeerOperationBody_requests (ops : NodeOps E) (bw : bcWorker E) (ipPort : String) :
    requests (runPeerOperationBody ops bw ipPort).trace =
      requests (runPeerOperationStatus ops bw ipPort).1.trace ++
        (if (runPeerOperationPeers ops bw ipPort).2.1.LatestBlockNumber >
            ops.CopyLatestBlockNumber (runPeerOperationPeers ops bw ipPort).1.node then
          (if ops.NewRequest (blocksURL ipPort
              ((ops.CopyLatestBlockNumber (runPeerOperationPeers ops bw ipPort).1.node + 1)
                % 18446744073709551616)) = none then
            [blocksURL ipPort
              ((ops.CopyLatestBlockNumber (runPeerOperationPeers ops bw ipPort).1.node + 1)
                % 18446744073709551616)]
          else [])
        else []) := by
  obtain ⟨p1, -⟩ := runPeerOperationPeers_trace ops bw ipPort
  unfold runPeerOperationBody
  simp only
  split
  · obtain ⟨-, w2⟩ := writePeerBlocks_trace ops
      ((runPeerOperationPeers ops bw ipPort).1.evHandler
        ("bcWorker: runPeerOperation: mainG: writePeerBlocks: latestBlockNumber["
          ++ toString (runPeerOperationPeers ops bw ipPort).2.1.LatestBlockNumber ++ "]"))
      ipPort
    rw [(trace_logError _ _ _).2.1, w2]
    simp [p1]
  · simp [p1]

theorem runPeerOperationBody_registrations (ops : NodeOps E) (bw : bcWorker E)
    (ipPort : String) :
    registrations (runPeerOperationBody ops bw ipPort).trace
      = registrations (runPeerOperationPeers ops bw ipPort).1.trace := by
  unfold runPeerOperationBody
  simp only
  split
  · rw [(trace_logError _ _ _).1, (writePeerBlocks_trace ops _ ipPort).1]
    simp
  · rfl

theorem logError_trace_extend (bw : bcWorker E) (what : String) (err : Option String) :
    bw.trace <+: (logError bw what err).trace := by
  cases err with
  | none => exact ⟨[], by simp [logError]⟩
  | some e => exact ⟨[Event.ev (what ++ e)], rfl⟩

theorem writePeerBlocksLoop_trace_extend (ops : NodeOps E) (bw : bcWorker E)
    (pbs : List PeerBlock) :
    bw.trace <+: (writePeerBlocksLoop ops bw pbs).1.trace := by
  induction pbs generalizing bw with
  | nil => exact ⟨[], by simp [writePeerBlocksLoop]⟩
  | cons pb rest ih =>
    cases hk : (ops.writeNewBlockFromPeer bw.node pb).1 with
    | some e =>
      simp only [writePeerBlocksLoop, bcWorker.node_evHandler, hk, trace_record,
        trace_evHandler, List.append_assoc]
      exact ⟨_, rfl⟩
    | none =>
      simp only [writePeerBlocksLoop, bcWorker.node_evHandler, hk]
      refine List.IsPrefix.trans ?_ (ih _)
      simp only [trace_record, trace_evHandler, List.append_assoc]
      exact ⟨_, rfl⟩

theorem writePeerBlocks_trace_extend (ops : NodeOps E) (bw : bcWorker E) (ipPort : String) :
    bw.trace <+: (writePeerBlocks ops bw ipPort).1.trace := by
  unfold writePeerBlocks
  simp only
  repeat' split
  all_goals first
    | (simp only [trace_evHandler, trace_record, List.append_assoc]
       exact ⟨_, rfl⟩)
    | (simp only [trace_evHandler]
       refine List.IsPrefix.trans ?_
         (List.IsPrefix.trans (writePeerBlocksLoop_trace_extend ops _ _) ⟨_, rfl⟩)
       simp only [trace_evHandler, trace_record, List.append_assoc]
       exact ⟨_, rfl⟩)

/-- The turn of a peer keeps, as the start of its trace, the trace it had once
the error of `addNewPeers` was logged. -/
theorem runPeerOperationBody_trace_extend (ops : NodeOps E) (bw : bcWorker E)
    (ipPort : String) :
    (runPeerOperationPeers ops bw ipPort).1.trace
      <+: (runPeerOperationBody ops bw ipPort).trace := by
  unfold runPeerOperationBody
  simp only
  split
  · refine List.IsPrefix.trans ?_ (logError_trace_extend _ _ _)
    refine List.IsPrefix.trans ?_ (writePeerBlocks_trace_extend ops _ ipPort)
    exact ⟨_, rfl⟩
  · exact ⟨[], by simp⟩

/-- A failed `addNewPeers` is logged as soon as it has returned. -/
theorem runPeerOperationPeers_trace_of_error (ops : NodeOps E) (bw : bcWorker E)
    (ipPort : String) {err : String}
    (hfail : (runPeerOperationPeers ops bw ipPort).2.2 = some err) :
    (runPeerOperationPeers ops bw ipPort).1.trace =
      (addNewPeers ops (runPeerOperationStatus ops bw ipPort).1
        (runPeerOperationStatus ops bw ipPort).2.1.KnownPeers).1.trace ++
      [Event.ev ("bcWorker: runPeerOperation: mainG: addNewPeers: ERROR: " ++ err)] := by
  simp only [runPeerOperationPeers] at hfail ⊢
  rw [hfail]
  rfl

theorem runPeerOperationLoop_append (ops : NodeOps E) (bw : bcWorker E)
    (xs ys : List String) :
    runPeerOperationLoop ops bw (xs ++ ys)
      = runPeerOperationLoop ops (runPeerOperationLoop ops bw xs) ys := by
  induction xs generalizing bw with
  | nil => rfl
  | cons x rest ih =>
    show runPeerOperationLoop ops (runPeerOperationBody ops bw x) (rest ++ ys) = _
    rw [ih]
    rfl

theorem runPeerOperationBody_requests_extend (ops : NodeOps E) (bw : bcWorker E)
    (ipPort : String) :
    requests bw.trace <+: requests (runPeerOperationBody ops bw ipPort).trace := by
  rw [runPeerOperationBody_requests, (runPeerOperationStatus_trace ops bw ipPort).2.2,
    List.append_assoc]
  exact ⟨_, rfl⟩

theorem runPeerOperationLoop_requests_extend (ops : NodeOps E) (bw : bcWorker E)
    (ps : List String) :
    requests bw.trace <+: requests (runPeerOperationLoop ops bw ps).trace := by
  induction ps generalizing bw with
  | nil => exact ⟨[], by simp [runPeerOperationLoop]⟩
  | cons p rest ih =>
    exact (runPeerOperationBody_requests_extend ops bw p).trans (ih _)

/-- Every peer of the list gets its status request, whatever happens to the
peers before it. -/
theorem runPeerOperationLoop_status_requested (ops : NodeOps E) (bw : bcWorker E)
    (ps : List String) {p : String} (hp : p ∈ ps)
    (hreq : ops.NewRequest (statusURL p) = none) :
    statusURL p ∈ requests (runPeerOperationLoop ops bw ps).trace := by
  induction ps generalizing bw with
  | nil => simp at hp
  | cons q rest ih =>
    rcases List.mem_cons.mp hp with heq | hmem
    · subst heq
      apply (runPeerOperationLoop_requests_extend ops _ rest).subset
      rw [runPeerOperationBody_requests, (runPeerOperationStatus_trace ops bw p).2.2]
      simp [hreq]
    · exact ih _ hmem

theorem runPeerOperation_split (ops : NodeOps E) (bw : bcWorker E)
    {before after : List String} {ipPort : String}
    (hsnap : ops.CopyKnownPeersList bw.node = before ++ ipPort :: after) :
    runPeerOperation ops bw =
      (runPeerOperationLoop ops
        (runPeerOperationBody ops (runPeerOperationUpTo ops bw before) ipPort) after).evHandler
        "bcWorker: runPeerOperation: mainG: completed" := by
  simp only [runPeerOperation, bcWorker.node_evHandler, hsnap, runPeerOperationLoop_append,
    runPeerOperationLoop, runPeerOperationUpTo]

theorem runPeerOperation_rest_requested (ops : NodeOps E) (bw : bcWorker E)
    {before after : List String} {ipPort : String}
    (hsnap : ops.CopyKnownPeersList bw.node = before ++ ipPort :: after) :
    ∀ p ∈ after, ops.NewRequest (statusURL p) = none →
      statusURL p ∈ requests (runPeerOperation ops bw).trace := by
  intro p hp hreq
  rw [runPeerOperation_split ops bw hsnap]
  simp only [trace_evHandler, requests_append, requests_cons_ev, requests_nil,
    List.append_nil]
  exact runPeerOperationLoop_status_requested ops _ after hp hreq

end Worker

namespace Worker

variable {E : Type}

/-! ## The peer synchronisation claims -/

/-- C9: when the status query of a peer of the snapshot fails, the failure is
logged and the turn of that peer ends after an `addNewPeers` over no peer: no
endpoint is registered, no block is applied and no request other than the failed
status request is made in that turn; the loop then goes on with the remaining
peers of the snapshot, each of which gets its status request. -/
theorem runPeerOperation_status_failure (ops : NodeOps E) (bw : bcWorker E)
    (before after : List String) (ipPort err : String)
    (hsnap : ops.CopyKnownPeersList bw.node = before ++ ipPort :: after)
    (hfail : (queryPeerStatus ops (runPeerOperationUpTo ops bw before) ipPort).2.2
      = some err) :
    runPeerOperationBody ops (runPeerOperationUpTo ops bw before) ipPort =
      ((((queryPeerStatus ops (runPeerOperationUpTo ops bw before) ipPort).1.evHandler
          ("bcWorker: runPeerOperation: mainG: queryPeerStatus: ERROR: " ++ err)).evHandler
          "bcWorker: runPeerOperation: mainG: addNewPeers: started").evHandler
          "bcWorker: runPeerOperation: mainG: addNewPeers: cempleted") ∧
    registrations (runPeerOperationBody ops (runPeerOperationUpTo ops bw before) ipPort).trace
      = registrations (runPeerOperationUpTo ops bw before).trace ∧
    blockWrites (runPeerOperationBody ops (runPeerOperationUpTo ops bw before) ipPort).trace
      = blockWrites (runPeerOperationUpTo ops bw before).trace ∧
    requests (runPeerOperationBody ops (runPeerOperationUpTo ops bw before) ipPort).trace
      = requests (runPeerOperationUpTo ops bw before).trace ++
        (if ops.NewRequest (statusURL ipPort) = none then [statusURL ipPort] else []) ∧
    runPeerOperation ops bw =
      (runPeerOperationLoop ops
        (runPeerOperationBody ops (runPeerOperationUpTo ops bw before) ipPort) after).evHandler
        "bcWorker: runPeerOperation: mainG: completed" ∧
    (∀ p ∈ after, ops.NewRequest (statusURL p) = none →
      statusURL p ∈ requests (runPeerOperation ops bw).trace) := by
  have hzero := queryPeerStatus_zero_of_error ops (runPeerOperationUpTo ops bw before) ipPort
    hfail
  obtain ⟨q1, q2, q3⟩ := queryPeerStatus_trace ops (runPeerOperationUpTo ops bw before) ipPort
  have hbody : runPeerOperationBody ops (runPeerOperationUpTo ops bw before) ipPort =
      ((((queryPeerStatus ops (runPeerOperationUpTo ops bw before) ipPort).1.evHandler
          ("bcWorker: runPeerOperation: mainG: queryPeerStatus: ERROR: " ++ err)).evHandler
          "bcWorker: runPeerOperation: mainG: addNewPeers: started").evHandler
          "bcWorker: runPeerOperation: mainG: addNewPeers: cempleted") := by
    simp [runPeerOperationBody, runPeerOperationPeers, runPeerOperationStatus, hzero, hfail,
      logError, peerStatus.zero, addNewPeers_nil]
  refine ⟨hbody, ?_, ?_, ?_, runPeerOperation_split ops bw hsnap,
    runPeerOperation_rest_requested ops bw hsnap⟩
  · rw [hbody]; simp [q1]
  · rw [hbody]; simp [q2]
  · rw [hbody]; simp [q3]

/-- Witness of `runPeerOperation_status_failure`: the known peers are `down:9`,
which cannot be reached, then `a:1`. -/
theorem runPeerOperation_status_failure_witness :
    registrations (runPeerOperationBody demoOps
        (runPeerOperationUpTo demoOps (demoWorker 0 ["down:9", "a:1"]) []) "down:9").trace
      = registrations (runPeerOperationUpTo demoOps (demoWorker 0 ["down:9", "a:1"]) []).trace ∧
    (∀ p ∈ ["a:1"], demoOps.NewRequest (statusURL p) = none →
      statusURL p ∈ requests (runPeerOperation demoOps (demoWorker 0 ["down:9", "a:1"])).trace) :=
  ⟨(runPeerOperation_status_failure demoOps (demoWorker 0 ["down:9", "a:1"]) [] ["a:1"]
      "down:9" "connection refused" (by decide) (by decide)).2.1,
   (runPeerOperation_status_failure demoOps (demoWorker 0 ["down:9", "a:1"]) [] ["a:1"]
      "down:9" "connection refused" (by decide) (by decide)).2.2.2.2.2⟩

/-- C10, as stated, fails: the peer `a:1` reports the known peers `bad:0` and
`c:3` and latest block 3; registering `bad:0` fails, and the turn of `a:1` still
requests its blocks and applies the block it gets. -/
theorem C10_counterexample :
    ¬ ∀ (ops : NodeOps DemoEnv) (bw : bcWorker DemoEnv) (ipPort err : String),
      (runPeerOperationPeers ops bw ipPort).2.2 = some err →
      requests (runPeerOperationBody ops bw ipPort).trace
        = requests (runPeerOperationStatus ops bw ipPort).1.trace ∧
      blockWrites (runPeerOperationBody ops bw ipPort).trace = blockWrites bw.trace := by
  intro hall
  have hc := hall demoOps (demoWorker 0 ["a:1"]) "a:1" "peer refused" (by decide)
  revert hc
  decide

/-- C10, amended: when registering one of the endpoints reported by a peer
fails, the endpoints after it in the known-peer set of that peer are not
registered in that turn, and the error is logged as soon as `addNewPeers` has
returned; the turn then goes on: the block-range request is made exactly when
the latest block number reported by the peer exceeds the local head (and the
request can be built); and the loop goes on with the remaining peers of the
snapshot, each of which gets its status request. -/
theorem runPeerOperation_registration_failure (ops : NodeOps E) (bw : bcWorker E)
    (before after : List String) (ipPort err : String)
    (hsnap : ops.CopyKnownPeersList bw.node = before ++ ipPort :: after)
    (hfail : (runPeerOperationPeers ops (runPeerOperationUpTo ops bw before) ipPort).2.2
      = some err) :
    (∃ (done : List String) (failed : String) (rest : List String) (node : E),
      (runPeerOperationStatus ops (runPeerOperationUpTo ops bw before)
          ipPort).2.1.KnownPeers = done ++ failed :: rest ∧
      (ops.addPeerNode node failed).1 = some err ∧
      registrations
          (runPeerOperationBody ops (runPeerOperationUpTo ops bw before) ipPort).trace
        = registrations (runPeerOperationUpTo ops bw before).trace ++ done ++ [failed]) ∧
    (∃ later : List Event,
      (runPeerOperationBody ops (runPeerOperationUpTo ops bw before) ipPort).trace =
        (addNewPeers ops
          (runPeerOperationStatus ops (runPeerOperationUpTo ops bw before) ipPort).1
          (runPeerOperationStatus ops (runPeerOperationUpTo ops bw before)
            ipPort).2.1.KnownPeers).1.trace ++
        Event.ev ("bcWorker: runPeerOperation: mainG: addNewPeers: ERROR: " ++ err)
          :: later) ∧
    Event.ev ("bcWorker: runPeerOperation: mainG: addNewPeers: ERROR: " ++ err) ∈
      (runPeerOperationBody ops (runPeerOperationUpTo ops bw before) ipPort).trace ∧
    requests (runPeerOperationBody ops (runPeerOperationUpTo ops bw before) ipPort).trace =
      requests (runPeerOperationStatus ops (runPeerOperationUpTo ops bw before) ipPort).1.trace
      ++ (if (runPeerOperationPeers ops (runPeerOperationUpTo ops bw before)
              ipPort).2.1.LatestBlockNumber >
            ops.CopyLatestBlockNumber
              (runPeerOperationPeers ops (runPeerOperationUpTo ops bw before) ipPort).1.node then
          (if ops.NewRequest (blocksURL ipPort
              ((ops.CopyLatestBlockNumber
                (runPeerOperationPeers ops (runPeerOperationUpTo ops bw before) ipPort).1.node
                  + 1) % 18446744073709551616)) = none then
            [blocksURL ipPort
              ((ops.CopyLatestBlockNumber
                (runPeerOperationPeers ops (runPeerOperationUpTo ops bw before) ipPort).1.node
                  + 1) % 18446744073709551616)]
          else [])
        else []) ∧
    runPeerOperation ops bw =
      (runPeerOperationLoop ops
        (runPeerOperationBody ops (runPeerOperationUpTo ops bw before) ipPort) after).evHandler
        "bcWorker: runPeerOperation: mainG: completed" ∧
    (∀ p ∈ after, ops.NewRequest (statusURL p) = none →
      statusURL p ∈ requests (runPeerOperation ops bw).trace) := by
  have hlog : ∃ later : List Event,
      (runPeerOperationBody ops (runPeerOperationUpTo ops bw before) ipPort).trace =
        (addNewPeers ops
          (runPeerOperationStatus ops (runPeerOperationUpTo ops bw before) ipPort).1
          (runPeerOperationStatus ops (runPeerOperationUpTo ops bw before)
            ipPort).2.1.KnownPeers).1.trace ++
        Event.ev ("bcWorker: runPeerOperation: mainG: addNewPeers: ERROR: " ++ err)
          :: later := by
    obtain ⟨later, hlater⟩ :=
      runPeerOperationBody_trace_extend ops (runPeerOperationUpTo ops bw before) ipPort
    refine ⟨later, ?_⟩
    rw [← hlater, runPeerOperationPeers_trace_of_error ops _ ipPort hfail]
    simp
  have hmem : Event.ev ("bcWorker: runPeerOperation: mainG: addNewPeers: ERROR: " ++ err) ∈
      (runPeerOperationBody ops (runPeerOperationUpTo ops bw before) ipPort).trace := by
    obtain ⟨later, hlater⟩ := hlog
    rw [hlater]
    simp
  refine ⟨?_, hlog, hmem, runPeerOperationBody_requests ops _ ipPort,
    runPeerOperation_split ops bw hsnap, runPeerOperation_rest_requested ops bw hsnap⟩
  obtain ⟨s1, -, -⟩ := runPeerOperationStatus_trace ops (runPeerOperationUpTo ops bw before)
    ipPort
  obtain ⟨-, -, -, a4⟩ := addNewPeers_trace ops
    (runPeerOperationStatus ops (runPeerOperationUpTo ops bw before) ipPort).1
    (runPeerOperationStatus ops (runPeerOperationUpTo ops bw before) ipPort).2.1.KnownPeers
  obtain ⟨done, failed, rest, node, hks, hbad, hreg⟩ := a4 err hfail
  refine ⟨done, failed, rest, node, hks, hbad, ?_⟩
  rw [runPeerOperationBody_registrations]
  simp only [runPeerOperationPeers]
  rw [(trace_logError _ _ _).1, hreg, s1]

/-- Witness of `runPeerOperation_registration_failure`: the only known peer is
`a:1`, which reports `bad:0`, whose registration fails, then `c:3`. -/
theorem runPeerOperation_registration_failure_witness :
    Event.ev ("bcWorker: runPeerOperation: mainG: addNewPeers: ERROR: " ++ "peer refused") ∈
      (runPeerOperationBody demoOps
        (runPeerOperationUpTo demoOps (demoWorker 0 ["a:1"]) []) "a:1").trace ∧
    requests (runPeerOperationBody demoOps
        (runPeerOperationUpTo demoOps (demoWorker 0 ["a:1"]) []) "a:1").trace =
      requests (runPeerOperationStatus demoOps
        (runPeerOperationUpTo demoOps (demoWorker 0 ["a:1"]) []) "a:1").1.trace
      ++ (if (runPeerOperationPeers demoOps (runPeerOperationUpTo demoOps (demoWorker 0 ["a:1"]) [])
              "a:1").2.1.LatestBlockNumber >
            demoOps.CopyLatestBlockNumber
              (runPeerOperationPeers demoOps (runPeerOperationUpTo demoOps (demoWorker 0 ["a:1"]) [])
                "a:1").1.node then
          (if demoOps.NewRequest (blocksURL "a:1"
              ((demoOps.CopyLatestBlockNumber
                (runPeerOperationPeers demoOps (runPeerOperationUpTo demoOps (demoWorker 0 ["a:1"]) [])
                  "a:1").1.node + 1) % 18446744073709551616)) = none then
            [blocksURL "a:1"
              ((demoOps.CopyLatestBlockNumber
                (runPeerOperationPeers demoOps (runPeerOperationUpTo demoOps (demoWorker 0 ["a:1"]) [])
                  "a:1").1.node + 1) % 18446744073709551616)]
          else [])
        else []) :=
  ⟨(runPeerOperation_registration_failure demoOps (demoWorker 0 ["a:1"]) [] [] "a:1"
      "peer refused" (by decide) (by decide)).2.2.1,
   (runPeerOperation_registration_failure demoOps (demoWorker 0 ["a:1"]) [] [] "a:1"
      "peer refused" (by decide) (by decide)).2.2.2.1⟩

end Worker
